import Mathlib

/-!
Verification of the Go arithmetic expression parser/evaluator
(package `expressionparser`: lexer, recursive-descent parser, evaluator).

Modelling conventions:
* Go strings are indexed byte-by-byte (`rune(l.input[l.pos])` casts one byte
  to a rune), so the input is modelled as a `List Char` whose characters stand
  for single bytes (values below 256).
* `unicode.IsSpace` / `unicode.IsDigit`, applied to such byte-runes, are the
  Latin-1 restrictions of the Go predicates.
* `float64` appears twice.  The definitions mirroring the Go functions
  (`parseNumber`, `Eval`, `runString`) read each `float64` as an exact
  rational; that reading is only used where the rounding is irrelevant
  (control flow, error propagation, comparisons of two runs of the same
  computation).  Where the rounding itself matters, the `F64` layer below
  (`parseNumber64`, `EvalF`, `runString64`) models `float64` faithfully:
  sign-magnitude binary64 with round-to-nearest, ties to even, and the
  IEEE-754 special values.
* Go's `(value, error)` returns are modelled as `Except String`; when Go
  returns a non-nil error the accompanying zero value carries no information.
* The mutually recursive parser functions take an explicit fuel argument so
  that Lean accepts the recursion; `Parse` supplies a fuel that is proved
  large enough that the artificial out-of-fuel result is never reached on the
  inputs any theorem speaks about.
-/

namespace ExpressionParser

/-- Go `unicode.IsSpace` restricted to single-byte runes: ASCII whitespace
plus NEL (0x85) and NBSP (0xA0). -/
def isSpaceGo (c : Char) : Bool :=
  c.toNat == 9 || c.toNat == 10 || c.toNat == 11 || c.toNat == 12 ||
    c.toNat == 13 || c.toNat == 32 || c.toNat == 133 || c.toNat == 160

/-- Go `unicode.IsDigit` restricted to single-byte runes: the ASCII digits. -/
def isDigitGo (c : Char) : Bool :=
  48 ≤ c.toNat && c.toNat ≤ 57

/-- Token kinds, in the order of the Go `iota` block. -/
inductive TokenType where
  | EOF
  | NUMBER
  | PLUS
  | MINUS
  | MULT
  | DIV
  | LPAREN
  | RPAREN
  | INVALID
deriving DecidableEq

/-- The numeric value of the Go `iota` constant, used when an error message
formats a token type with `%v`. -/
def TokenType.iotaVal : TokenType → Nat
  | .EOF => 0
  | .NUMBER => 1
  | .PLUS => 2
  | .MINUS => 3
  | .MULT => 4
  | .DIV => 5
  | .LPAREN => 6
  | .RPAREN => 7
  | .INVALID => 8

/-- Token structure: a kind and a string payload. -/
structure Token where
  type : TokenType
  value : String
deriving DecidableEq

/-- Lexer state: the input text, the scan cursor `pos`, and the current
lookahead character `ch` (`Char.ofNat 0` is the end-of-input sentinel). -/
structure Lexer where
  input : List Char
  pos : Nat
  ch : Char
deriving DecidableEq

/-- Go `readChar`: set `ch` to the byte at `pos` (or the 0 sentinel past the
end) and advance `pos`. -/
def readChar (l : Lexer) : Lexer :=
  { l with
    ch := if l.pos ≥ l.input.length then Char.ofNat 0 else l.input.getD l.pos (Char.ofNat 0)
    pos := l.pos + 1 }

/-- Go `NewLexer`: zero-valued struct holding the input, then one `readChar`. -/
def NewLexer (input : List Char) : Lexer :=
  readChar { input := input, pos := 0, ch := Char.ofNat 0 }

/-- Fueled form of the whitespace-skipping loop at the top of Go
`NextToken`; the fuel is a structural-recursion artifact, and
`l.input.length + 2` is proved below to outlast the loop from any state. -/
def skipWhitespaceAux : Nat → Lexer → Lexer
  | 0, l => l
  | n + 1, l => if isSpaceGo l.ch then skipWhitespaceAux n (readChar l) else l

/-- The whitespace-skipping loop at the top of Go `NextToken`:
`for unicode.IsSpace(l.ch) { l.readChar() }`. -/
def skipWhitespace (l : Lexer) : Lexer :=
  skipWhitespaceAux (l.input.length + 2) l

/-- Fueled form of the digit-consuming loop inside Go `readNumber`. -/
def readDigitsAux : Nat → Lexer → Lexer
  | 0, l => l
  | n + 1, l => if isDigitGo l.ch then readDigitsAux n (readChar l) else l

/-- The digit-consuming loop inside Go `readNumber`:
`for unicode.IsDigit(l.ch) { l.readChar() }`. -/
def readDigits (l : Lexer) : Lexer :=
  readDigitsAux (l.input.length + 2) l

/-- Go `readNumber`: remember `start := pos - 1`, run the digit loop, and
return the slice `input[start : pos-1]` together with the final state. -/
def readNumber (l : Lexer) : String × Lexer :=
  let start := l.pos - 1
  let l' := readDigits l
  (String.mk ((l'.input.take (l'.pos - 1)).drop start), l')

/-- The token produced by the `switch l.ch` at the bottom of Go `NextToken`:
one of the six single-character tokens, or an INVALID token whose payload
carries the offending character. -/
def opToken (c : Char) : Token :=
  if c = '+' then ⟨.PLUS, "+"⟩
  else if c = '-' then ⟨.MINUS, "-"⟩
  else if c = '*' then ⟨.MULT, "*"⟩
  else if c = '/' then ⟨.DIV, "/"⟩
  else if c = '(' then ⟨.LPAREN, "("⟩
  else if c = ')' then ⟨.RPAREN, ")"⟩
  else ⟨.INVALID, "Invalid character: " ++ String.mk [c]⟩

/-- Go `NextToken`: skip whitespace, then return the EOF token on the 0
sentinel, a NUMBER token on a digit, and otherwise the `switch`-selected
single-character token (advancing past the character). -/
def NextToken (l : Lexer) : Token × Lexer :=
  let l := skipWhitespace l
  if l.ch = Char.ofNat 0 then
    (⟨.EOF, ""⟩, l)
  else if isDigitGo l.ch then
    let r := readNumber l
    (⟨.NUMBER, r.1⟩, r.2)
  else
    (opToken l.ch, readChar l)

/-- Expression tree: Go's `Number` and `BinaryOp` variants of `Expr`.
The `Number` payload is the Go `float64`, modelled as `ℚ`; `BinaryOp` stores
the whole operator token, as the Go struct does. -/
inductive Expr where
  | Number (Value : ℚ)
  | BinaryOp (Left : Expr) (Op : Token) (Right : Expr)
deriving DecidableEq

/-- The decimal value of a digit string (most significant digit first). -/
def digitsToNat (ds : List Char) : Nat :=
  ds.foldl (fun acc c => 10 * acc + (c.toNat - 48)) 0

/-- Go `parseNumber`: `fmt.Sscanf(s, "%f", &num)` with the error ignored.
Modelled on digit-prefix strings, the only payloads the parser ever passes:
the result is the decimal value of the leading digit run and `0` when the
string has no leading digit (`num` keeps its zero value).  This reading is
exact where Go rounds to binary64; it is used only by theorems that do not
depend on the rounding — `parseNumber64` below is the faithful `float64`
version (the rounding of this exact value). -/
def parseNumber (s : String) : ℚ :=
  (digitsToNat (s.toList.takeWhile isDigitGo) : ℚ)

/-- Parser state: the lexer it draws tokens from plus the single current
lookahead token. -/
structure Parser where
  lexer : Lexer
  curr : Token
deriving DecidableEq

/-- Go `(*Parser).nextToken`: pull one token from the lexer into `curr`. -/
def advanceTok (p : Parser) : Parser :=
  let r := NextToken p.lexer
  ⟨r.2, r.1⟩

/-- Go `NewParser`: wrap the lexer and prime the lookahead token. -/
def NewParser (l : Lexer) : Parser :=
  advanceTok ⟨l, ⟨.EOF, ""⟩⟩

/-- Message used for the artificial fuel-exhaustion branch of the parser
model; no theorem below ever reaches it. -/
def fuelMsg : String := "internal: out of fuel"

/-- Go error message of `parseFactor`'s default branch; `%v` on the
`TokenType` (an integer constant) prints its numeric value. -/
def factorErrMsg (t : TokenType) : String :=
  "expected a number or parenthesis, got " ++ toString t.iotaVal

mutual

/-- Go `parseExpr`: parse one term, then fold `(+ | -) term` repetitions
left-associatively (the fold itself is `parseExprLoop`). -/
def parseExpr : Nat → Parser → Except String (Expr × Parser)
  | 0, _ => .error fuelMsg
  | fuel + 1, p =>
    match parseTerm fuel p with
    | .error e => .error e
    | .ok (left, p) => parseExprLoop fuel left p

/-- The `for p.curr.Type == PLUS || p.curr.Type == MINUS` loop of Go
`parseExpr`, with the running left subtree as accumulator. -/
def parseExprLoop : Nat → Expr → Parser → Except String (Expr × Parser)
  | 0, _, _ => .error fuelMsg
  | fuel + 1, left, p =>
    if p.curr.type = TokenType.PLUS ∨ p.curr.type = TokenType.MINUS then
      let op := p.curr
      let p := advanceTok p
      match parseTerm fuel p with
      | .error e => .error e
      | .ok (right, p) => parseExprLoop fuel (.BinaryOp left op right) p
    else .ok (left, p)

/-- Go `parseTerm`: parse one factor, then fold `(* | /) factor` repetitions
left-associatively. -/
def parseTerm : Nat → Parser → Except String (Expr × Parser)
  | 0, _ => .error fuelMsg
  | fuel + 1, p =>
    match parseFactor fuel p with
    | .error e => .error e
    | .ok (left, p) => parseTermLoop fuel left p

/-- The `for p.curr.Type == MULT || p.curr.Type == DIV` loop of Go
`parseTerm`. -/
def parseTermLoop : Nat → Expr → Parser → Except String (Expr × Parser)
  | 0, _, _ => .error fuelMsg
  | fuel + 1, left, p =>
    if p.curr.type = TokenType.MULT ∨ p.curr.type = TokenType.DIV then
      let op := p.curr
      let p := advanceTok p
      match parseFactor fuel p with
      | .error e => .error e
      | .ok (right, p) => parseTermLoop fuel (.BinaryOp left op right) p
    else .ok (left, p)

/-- Go `parseFactor`: a NUMBER token becomes a `Number` leaf (converting the
payload with `parseNumber`), a LPAREN introduces a parenthesized
sub-expression that must be closed by RPAREN, and every other token kind is a
syntax error naming the token kind. -/
def parseFactor : Nat → Parser → Except String (Expr × Parser)
  | 0, _ => .error fuelMsg
  | fuel + 1, p =>
    if p.curr.type = TokenType.NUMBER then
      let value := p.curr.value
      .ok (.Number (parseNumber value), advanceTok p)
    else if p.curr.type = TokenType.LPAREN then
      match parseExpr fuel (advanceTok p) with
      | .error e => .error e
      | .ok (expr, p') =>
        if p'.curr.type = TokenType.RPAREN then
          .ok (expr, advanceTok p')
        else
          .error "expected closing parenthesis"
    else
      .error (factorErrMsg p.curr.type)

end

/-- Go `Parse`: the entry point simply runs `parseExpr`.  The fuel
`3 * |input| + 8` is a modelling artifact proved sufficient below. -/
def Parse (p : Parser) : Except String (Expr × Parser) :=
  parseExpr (3 * p.lexer.input.length + 8) p

/-- Go `Eval`: post-order evaluation of the tree; `division by zero` when the
right operand of a DIV node evaluates to exactly `0`; operator tokens outside
the four arithmetic kinds fall through to `invalid expression` (the Go outer
`default` branch, `unsupported expression type`, is unreachable because the
Lean `Expr` type has exactly the two variants the Go code switches on).
The arithmetic here is the exact-rational reading of `float64`, used only by
theorems about control flow and error propagation; `EvalF` below is the
faithful binary64 version. -/
def Eval : Expr → Except String ℚ
  | .Number v => .ok v
  | .BinaryOp l op r =>
    match Eval l with
    | .error e => .error e
    | .ok left =>
      match Eval r with
      | .error e => .error e
      | .ok right =>
        if op.type = TokenType.PLUS then .ok (left + right)
        else if op.type = TokenType.MINUS then .ok (left - right)
        else if op.type = TokenType.MULT then .ok (left * right)
        else if op.type = TokenType.DIV then
          if right = 0 then .error "division by zero" else .ok (left / right)
        else .error "invalid expression"

/-- The whole pipeline on a character list, as the Go driver runs it:
fresh lexer, fresh parser, `Parse`, then `Eval` on the resulting tree. -/
def ParseString (s : List Char) : Except String (Expr × Parser) :=
  Parse (NewParser (NewLexer s))

/-- Parse-then-eval on a character list. -/
def runString (s : List Char) : Except String ℚ :=
  match ParseString s with
  | .error e => .error e
  | .ok (e, _) => Eval e

/-- Parse-then-eval on a string literal. -/
def runStr (s : String) : Except String ℚ :=
  runString s.toList

/-- The characters the lexer has not yet passed: `ch` (at index `pos - 1`)
and everything after it. -/
def laSuffix (l : Lexer) : List Char :=
  l.input.drop (l.pos - 1)

/-- Lexer states reachable through the API: the cursor sits one past the
lookahead character, which is the byte at `pos - 1` (or the 0 sentinel at the
end). -/
def WFL (l : Lexer) : Prop :=
  1 ≤ l.pos ∧ l.pos ≤ l.input.length + 1 ∧
    l.ch = l.input.getD (l.pos - 1) (Char.ofNat 0)

instance (l : Lexer) : Decidable (WFL l) :=
  inferInstanceAs (Decidable (_ ∧ _ ∧ _))

/-- Pure reference tokenizer: the token `NextToken` extracts from a character
stream, together with the unconsumed remainder of the stream. -/
def tokenizeStep (cs : List Char) : Token × List Char :=
  match cs.dropWhile isSpaceGo with
  | [] => (⟨.EOF, ""⟩, [])
  | c :: rest =>
    if c = Char.ofNat 0 then
      (⟨.EOF, ""⟩, c :: rest)
    else if isDigitGo c then
      (⟨.NUMBER, String.mk ((c :: rest).takeWhile isDigitGo)⟩,
        (c :: rest).dropWhile isDigitGo)
    else
      (opToken c, rest)

/-- The n-th token of a character stream under repeated `tokenizeStep`. -/
def nthTok : Nat → List Char → Token
  | 0, cs => (tokenizeStep cs).1
  | n + 1, cs => nthTok n (tokenizeStep cs).2

/-- Iterated `NextToken`, keeping only the lexer state. -/
def lexIter : Nat → Lexer → Lexer
  | 0, l => l
  | n + 1, l => lexIter n (NextToken l).2

mutual

/-- Derivations of the spec grammar `expression := term (("+"|"-") term)*`,
`term := factor (("*"|"/") factor)*`, `factor := NUMBER | "(" expression ")"`,
with the star unrolled to the left (left-associativity). -/
inductive GExpr where
  | term : GTerm → GExpr
  | add : GExpr → GTerm → GExpr
  | sub : GExpr → GTerm → GExpr

inductive GTerm where
  | factor : GFactor → GTerm
  | mul : GTerm → GFactor → GTerm
  | div : GTerm → GFactor → GTerm

inductive GFactor where
  | num : List Char → GFactor
  | paren : GExpr → GFactor

end

mutual

/-- Well-formed derivation: every literal is a nonempty digit string. -/
def gwfE : GExpr → Bool
  | .term t => gwfT t
  | .add e t => gwfE e && gwfT t
  | .sub e t => gwfE e && gwfT t

def gwfT : GTerm → Bool
  | .factor f => gwfF f
  | .mul t f => gwfT t && gwfF f
  | .div t f => gwfT t && gwfF f

def gwfF : GFactor → Bool
  | .num ds => !ds.isEmpty && ds.all isDigitGo
  | .paren e => gwfE e

end

mutual

/-- The input string a derivation generates (the grammar has no
whitespace). -/
def printE : GExpr → List Char
  | .term t => printT t
  | .add e t => printE e ++ '+' :: printT t
  | .sub e t => printE e ++ '-' :: printT t

def printT : GTerm → List Char
  | .factor f => printF f
  | .mul t f => printT t ++ '*' :: printF f
  | .div t f => printT t ++ '/' :: printF f

def printF : GFactor → List Char
  | .num ds => ds
  | .paren e => '(' :: (printE e ++ [')'])

end

mutual

/-- The expression tree the parser must build for a derivation. -/
def treeE : GExpr → Expr
  | .term t => treeT t
  | .add e t => .BinaryOp (treeE e) ⟨.PLUS, "+"⟩ (treeT t)
  | .sub e t => .BinaryOp (treeE e) ⟨.MINUS, "-"⟩ (treeT t)

def treeT : GTerm → Expr
  | .factor f => treeF f
  | .mul t f => .BinaryOp (treeT t) ⟨.MULT, "*"⟩ (treeF f)
  | .div t f => .BinaryOp (treeT t) ⟨.DIV, "/"⟩ (treeF f)

def treeF : GFactor → Expr
  | .num ds => .Number (parseNumber (String.mk ds))
  | .paren e => treeE e

end

mutual

/-- The mathematical value of a derivation: exact rational arithmetic with
standard precedence and left-associativity, undefined (`none`) exactly when a
division by zero occurs. -/
def denE : GExpr → Option ℚ
  | .term t => denT t
  | .add e t =>
    match denE e, denT t with
    | some a, some b => some (a + b)
    | _, _ => none
  | .sub e t =>
    match denE e, denT t with
    | some a, some b => some (a - b)
    | _, _ => none

def denT : GTerm → Option ℚ
  | .factor f => denF f
  | .mul t f =>
    match denT t, denF f with
    | some a, some b => some (a * b)
    | _, _ => none
  | .div t f =>
    match denT t, denF f with
    | some a, some b => if b = 0 then none else some (a / b)
    | _, _ => none

def denF : GFactor → Option ℚ
  | .num ds => some (digitsToNat ds : ℚ)
  | .paren e => denE e

end

/-- Leftmost term and remaining `(op, term)` repetitions of an expression
derivation, in input order. -/
def spineE : GExpr → GTerm × List (Token × GTerm)
  | .term t => (t, [])
  | .add e t => ((spineE e).1, (spineE e).2 ++ [(⟨.PLUS, "+"⟩, t)])
  | .sub e t => ((spineE e).1, (spineE e).2 ++ [(⟨.MINUS, "-"⟩, t)])

/-- Leftmost factor and remaining `(op, factor)` repetitions of a term
derivation, in input order. -/
def spineT : GTerm → GFactor × List (Token × GFactor)
  | .factor f => (f, [])
  | .mul t f => ((spineT t).1, (spineT t).2 ++ [(⟨.MULT, "*"⟩, f)])
  | .div t f => ((spineT t).1, (spineT t).2 ++ [(⟨.DIV, "/"⟩, f)])

/-- Text of the `(op, term)` repetitions of an expression spine. -/
def printPsE (ps : List (Token × GTerm)) : List Char :=
  (ps.map (fun q => q.1.value.toList ++ printT q.2)).flatten

/-- Text of the `(op, factor)` repetitions of a term spine. -/
def printPsT (ps : List (Token × GFactor)) : List Char :=
  (ps.map (fun q => q.1.value.toList ++ printF q.2)).flatten

/-- Left fold of expression-spine repetitions onto an accumulator tree,
mirroring the `parseExprLoop` accumulation. -/
def foldPsE (acc : Expr) (ps : List (Token × GTerm)) : Expr :=
  ps.foldl (fun a q => .BinaryOp a q.1 (treeT q.2)) acc

/-- Left fold of term-spine repetitions onto an accumulator tree. -/
def foldPsT (acc : Expr) (ps : List (Token × GFactor)) : Expr :=
  ps.foldl (fun a q => .BinaryOp a q.1 (treeF q.2)) acc

/-- Evaluation hits a division whose right operand is zero: the claim's
description of when `Eval` reports `division by zero`, following the
evaluation order (left child first, then right child, then the operator). -/
def divZeroReach : Expr → Prop
  | .Number _ => False
  | .BinaryOp l op r =>
    divZeroReach l ∨
    ((∃ a, Eval l = .ok a) ∧ divZeroReach r) ∨
    ((∃ a, Eval l = .ok a) ∧ op.type = TokenType.DIV ∧ Eval r = .ok 0)

/-- A token text: a nonempty digit run, or one character that is neither
whitespace, a digit, nor the 0 sentinel. -/
def PieceTok (p : List Char) : Prop :=
  (p ≠ [] ∧ ∀ c ∈ p, isDigitGo c = true) ∨
  (∃ c, p = [c] ∧ isSpaceGo c = false ∧ isDigitGo c = false ∧ c ≠ Char.ofNat 0)

/-- A digit piece must not be followed immediately by another digit, so that
inserting or removing whitespace cannot merge two number tokens. -/
def NoMerge (p s : List Char) : Prop :=
  (∀ c ∈ p, isDigitGo c = true) → s = [] ∨ isDigitGo (s.headD (Char.ofNat 0)) = false

/-- `SpacedTok ps s`: the string `s` consists of the token texts `ps` in
order, with arbitrary runs of whitespace before, between, and after them.
Two strings related to the same `ps` differ only in whitespace inserted
between tokens. -/
inductive SpacedTok : List (List Char) → List Char → Prop where
  | nil : SpacedTok [] []
  | space {c : Char} {ps : List (List Char)} {s : List Char} :
      isSpaceGo c = true → SpacedTok ps s → SpacedTok ps (c :: s)
  | piece {p : List Char} {ps : List (List Char)} {s : List Char} :
      PieceTok p → NoMerge p s → SpacedTok ps s → SpacedTok (p :: ps) (p ++ s)

/-- The token a piece text denotes. -/
def pieceTok (p : List Char) : Token :=
  (tokenizeStep p).1

/-- The token stream determined by a piece list: the pieces' tokens, then
END_OF_INPUT forever. -/
def psTok : List (List Char) → Nat → Token
  | [], _ => ⟨.EOF, ""⟩
  | p :: _, 0 => pieceTok p
  | _ :: ps, n + 1 => psTok ps n

/-- The parser state `p` is positioned at the character stream `cs`: its
lookahead token is the first token of `cs` and its lexer still has to deliver
the rest of `cs`. -/
def Sync (p : Parser) (cs : List Char) : Prop :=
  WFL p.lexer ∧ p.curr = (tokenizeStep cs).1 ∧ laSuffix p.lexer = (tokenizeStep cs).2

/-- No-merge boundary: the trailing stream does not begin with a digit, so a
number token ending right before it keeps its exact payload. -/
def NB (s : List Char) : Prop :=
  s = [] ∨ isDigitGo (s.headD (Char.ofNat 0)) = false

/-- Correct parse of one factor derivation, for every continuation stream and
every sufficient fuel. -/
def FactorOK (f : GFactor) : Prop :=
  gwfF f = true →
    ∀ p rest, Sync p (printF f ++ rest) → NB rest →
      ∀ fuel, 3 * (printF f).length - 1 ≤ fuel →
        ∃ p', parseFactor fuel p = .ok (treeF f, p') ∧ Sync p' rest

/-- Correct parse of one term derivation: the continuation must not start
with a `*` or `/` token, which would extend the term. -/
def TermOK (t : GTerm) : Prop :=
  gwfT t = true →
    ∀ p rest, Sync p (printT t ++ rest) → NB rest →
      (tokenizeStep rest).1.type ≠ TokenType.MULT →
      (tokenizeStep rest).1.type ≠ TokenType.DIV →
      ∀ fuel, 3 * (printT t).length + 1 ≤ fuel →
        ∃ p', parseTerm fuel p = .ok (treeT t, p') ∧ Sync p' rest

/-- Correct parse of one expression derivation: the continuation must not
start with any of the four operator tokens. -/
def ExprOK (e : GExpr) : Prop :=
  gwfE e = true →
    ∀ p rest, Sync p (printE e ++ rest) → NB rest →
      (tokenizeStep rest).1.type ≠ TokenType.PLUS →
      (tokenizeStep rest).1.type ≠ TokenType.MINUS →
      (tokenizeStep rest).1.type ≠ TokenType.MULT →
      (tokenizeStep rest).1.type ≠ TokenType.DIV →
      ∀ fuel, 3 * (printE e).length + 2 ≤ fuel →
        ∃ p', parseExpr fuel p = .ok (treeE e, p') ∧ Sync p' rest

/-- Wellformedness of one `(op, factor)` repetition of a term spine, packaged
with the correctness of its factor. -/
def TPairOK (q : Token × GFactor) : Prop :=
  (q.1 = ⟨.MULT, "*"⟩ ∨ q.1 = ⟨.DIV, "/"⟩) ∧ gwfF q.2 = true ∧ FactorOK q.2

/-- Wellformedness of one `(op, term)` repetition of an expression spine,
packaged with the correctness of its term. -/
def EPairOK (q : Token × GTerm) : Prop :=
  (q.1 = ⟨.PLUS, "+"⟩ ∨ q.1 = ⟨.MINUS, "-"⟩) ∧ gwfT q.2 = true ∧ TermOK q.2

/-- Two parser states in lockstep: same lookahead token and token-for-token
identical residual streams (their texts may differ by whitespace only). -/
def PRel (p q : Parser) : Prop :=
  WFL p.lexer ∧ WFL q.lexer ∧ p.curr = q.curr ∧
    ∀ n, nthTok n (laSuffix p.lexer) = nthTok n (laSuffix q.lexer)

/-- Lockstep outcome of one parsing function on two related states: the same
error, or the same tree with still-related states whose residues shrank to
within the given bounds. -/
def POut (r1 r2 : Except String (Expr × Parser)) (b1 b2 : Nat) : Prop :=
  (∃ msg, r1 = .error msg ∧ r2 = .error msg) ∨
  (∃ e p' q', r1 = .ok (e, p') ∧ r2 = .ok (e, q') ∧ PRel p' q' ∧
    (laSuffix p'.lexer).length ≤ b1 ∧ (laSuffix q'.lexer).length ≤ b2)

/-! ### IEEE-754 binary64: the `float64` type Go computes with.

Go's `float64` literals (`strconv`, reached through `fmt.Sscanf "%f"`) and
arithmetic are correctly rounded to the nearest binary64, ties to even.  The
following layer implements that rounding on exact integer arithmetic, so that
every value is kernel-computable. -/

/-- A Go `float64` value: a finite `(-1)^sign * m * 2^e` (both zeros
included), a signed infinity, or NaN.  All finite values below are produced
by `roundMag`, which emits one fixed representation per real number. -/
inductive F64 where
  | finite (sign : Bool) (m : ℕ) (e : ℤ)
  | inf (sign : Bool)
  | nan
deriving DecidableEq

/-- `2 ^ e ≤ a / d`, decided on naturals (`a, d ≥ 1`). -/
def pow2LE (e : ℤ) (a d : ℕ) : Bool :=
  if 0 ≤ e then decide (2 ^ e.toNat * d ≤ a) else decide (d ≤ 2 ^ (-e).toNat * a)

/-- `⌊log2 n⌋` with explicit fuel, so that concrete values reduce in the
kernel (`Nat.log2` itself is compiled by well-founded recursion). -/
def log2fuel : ℕ → ℕ → ℕ
  | 0, _ => 0
  | fuel + 1, n => if 2 ≤ n then log2fuel fuel (n / 2) + 1 else 0

/-- `⌊log2 n⌋` for `n ≥ 1` (and `0` at `0`): fuel `n` always suffices. -/
def nlog2 (n : ℕ) : ℕ :=
  log2fuel n n

/-- `⌊log2 (a / d)⌋` for `a, d ≥ 1`: the floor is `⌊log2 a⌋ - ⌊log2 d⌋` or one
less, settled by one comparison. -/
def flog2 (a d : ℕ) : ℤ :=
  if pow2LE ((nlog2 a : ℤ) - (nlog2 d : ℤ)) a d
  then (nlog2 a : ℤ) - (nlog2 d : ℤ)
  else (nlog2 a : ℤ) - (nlog2 d : ℤ) - 1

/-- `N / D` rounded to the nearest integer, ties to the even neighbour
(`D ≥ 1`). -/
def rneN (N D : ℕ) : ℕ :=
  if D < 2 * (N % D) then N / D + 1
  else if 2 * (N % D) = D then (if N / D % 2 = 1 then N / D + 1 else N / D)
  else N / D

/-- The significand of `a / d` rounded at exponent `e`: the nearest-even
integer to `(a / d) * 2 ^ (52 - e)`. -/
def mant (a d : ℕ) (e : ℤ) : ℕ :=
  if 0 ≤ 52 - e then rneN (a * 2 ^ (52 - e).toNat) d
  else rneN a (d * 2 ^ (e - 52).toNat)

/-- The magnitude `a / d` (`d ≥ 1`) rounded to binary64: `some (m, e)` stands
for the finite value `m * 2 ^ e`, `none` for overflow to infinity.  A
magnitude below the normal range is rounded on the fixed subnormal grid
`2 ^ (-1074)`; a normal one to 53 significant bits, moving up one binade when
the significand rounds up to `2 ^ 53`; a result beyond the largest binade
(exponent over 1023) overflows. -/
def roundMag (a d : ℕ) : Option (ℕ × ℤ) :=
  if a = 0 then some (0, 0)
  else if flog2 a d < -1022 then some (rneN (a * 2 ^ 1074) d, -1074)
  else if mant a d (flog2 a d) = 2 ^ 53 then
    (if 1023 < flog2 a d + 1 then none else some (2 ^ 52, flog2 a d + 1 - 52))
  else if 1023 < flog2 a d then none
  else some (mant a d (flog2 a d), flog2 a d - 52)

/-- Attach a sign to a rounded magnitude: finite results keep it (IEEE signed
zero included), overflow becomes the signed infinity. -/
def roundSigned (s : Bool) (a d : ℕ) : F64 :=
  match roundMag a d with
  | some (m, e) => .finite s m e
  | none => .inf s

/-- The value `(-1)^s * A * 2 ^ e` rounded to binary64. -/
def roundDyadic (s : Bool) (A : ℕ) (e : ℤ) : F64 :=
  if 0 ≤ e then roundSigned s (A * 2 ^ e.toNat) 1 else roundSigned s A (2 ^ (-e).toNat)

/-- An exact rational rounded to binary64 — what every Go `float64`
conversion and operation returns for an exact result `q`. -/
def rndQ (q : ℚ) : F64 :=
  roundSigned (decide (q < 0)) q.num.natAbs q.den

/-- A natural number rounded to binary64. -/
def rndNat (n : ℕ) : F64 :=
  roundSigned false n 1

/-- IEEE negation (sign flip, exact). -/
def F64.neg : F64 → F64
  | .finite s m e => .finite (!s) m e
  | .inf s => .inf (!s)
  | .nan => .nan

/-- The signed integer `(-1)^s * m`. -/
def F64.sint (s : Bool) (m : ℕ) : ℤ :=
  if s then -(m : ℤ) else (m : ℤ)

/-- Go `+` on `float64`: the exact sum rounded to nearest-even.  NaN
propagates, opposite infinities give NaN, an infinity absorbs any finite
operand; a sum that is exactly zero is `+0` unless both operands are negative
(IEEE round-to-nearest sign rule for zero sums). -/
def fadd : F64 → F64 → F64
  | .nan, _ => .nan
  | _, .nan => .nan
  | .inf s, .inf t => if s = t then .inf s else .nan
  | .inf s, .finite _ _ _ => .inf s
  | .finite _ _ _, .inf t => .inf t
  | .finite s1 m1 e1, .finite s2 m2 e2 =>
    let S := F64.sint s1 m1 * 2 ^ (e1 - min e1 e2).toNat +
      F64.sint s2 m2 * 2 ^ (e2 - min e1 e2).toNat
    if S = 0 then .finite (s1 && s2) 0 0
    else roundDyadic (decide (S < 0)) S.natAbs (min e1 e2)

/-- Go `-` on `float64`: IEEE subtraction is exactly `x + (-y)`. -/
def fsub (x y : F64) : F64 :=
  fadd x (F64.neg y)

/-- Go `*` on `float64`: the exact product rounded to nearest-even; NaN
propagates, an infinity times zero is NaN, times anything else an infinity
with the XOR sign, which is also the sign of every finite product. -/
def fmul : F64 → F64 → F64
  | .nan, _ => .nan
  | _, .nan => .nan
  | .inf s, .inf t => .inf (s != t)
  | .inf s, .finite t m _ => if m = 0 then .nan else .inf (s != t)
  | .finite t m _, .inf s => if m = 0 then .nan else .inf (t != s)
  | .finite s1 m1 e1, .finite s2 m2 e2 => roundDyadic (s1 != s2) (m1 * m2) (e1 + e2)

/-- Go `/` on `float64`: the exact quotient rounded to nearest-even; NaN
propagates, `∞ / ∞` and `0 / 0` are NaN, a finite value over an infinity is a
signed zero, a nonzero value over a zero a signed infinity (that branch is
unreachable from `Eval`, whose `right == 0` guard precedes the division). -/
def fdiv : F64 → F64 → F64
  | .nan, _ => .nan
  | _, .nan => .nan
  | .inf _, .inf _ => .nan
  | .inf s, .finite t _ _ => .inf (s != t)
  | .finite s _ _, .inf t => .finite (s != t) 0 0
  | .finite s1 m1 e1, .finite s2 m2 e2 =>
    if m2 = 0 then (if m1 = 0 then .nan else .inf (s1 != s2))
    else if 0 ≤ e1 - e2 then roundSigned (s1 != s2) (m1 * 2 ^ (e1 - e2).toNat) m2
    else roundSigned (s1 != s2) m1 (m2 * 2 ^ (e2 - e1).toNat)

/-- Go `right == 0` on a `float64`: true of both zeros, false of NaN and the
infinities. -/
def F64.isZero : F64 → Bool
  | .finite _ m _ => decide (m = 0)
  | _ => false

/-- Go `Eval` at the `float64` level: the same post-order walk as `Eval`,
computing in binary64.  The Go tree stores `parseNumber(value)` — an already
rounded `float64` — in each `Number` leaf, while the `Expr` trees here carry
the payload's exact decimal value, so the leaf case applies the rounding; on
every tree the parser produces the composition equals Go's
parse-then-eval. -/
def EvalF : Expr → Except String F64
  | .Number v => .ok (rndQ v)
  | .BinaryOp l op r =>
    match EvalF l with
    | .error e => .error e
    | .ok left =>
      match EvalF r with
      | .error e => .error e
      | .ok right =>
        if op.type = TokenType.PLUS then .ok (fadd left right)
        else if op.type = TokenType.MINUS then .ok (fsub left right)
        else if op.type = TokenType.MULT then .ok (fmul left right)
        else if op.type = TokenType.DIV then
          if right.isZero then .error "division by zero" else .ok (fdiv left right)
        else .error "invalid expression"

mutual

/-- The binary64 value of a derivation: the same fold as `denE`, computed in
correctly rounded `float64` arithmetic, undefined (`none`) exactly when a
division by a zero value occurs. -/
def denFE : GExpr → Option F64
  | .term t => denFT t
  | .add e t =>
    match denFE e, denFT t with
    | some a, some b => some (fadd a b)
    | _, _ => none
  | .sub e t =>
    match denFE e, denFT t with
    | some a, some b => some (fsub a b)
    | _, _ => none

def denFT : GTerm → Option F64
  | .factor f => denFF f
  | .mul t f =>
    match denFT t, denFF f with
    | some a, some b => some (fmul a b)
    | _, _ => none
  | .div t f =>
    match denFT t, denFF f with
    | some a, some b => if b.isZero then none else some (fdiv a b)
    | _, _ => none

def denFF : GFactor → Option F64
  | .num ds => some (rndNat (digitsToNat ds))
  | .paren e => denFE e

end

theorem isSpaceGo_zero : isSpaceGo (Char.ofNat 0) = false := by decide

theorem isDigitGo_zero : isDigitGo (Char.ofNat 0) = false := by decide

theorem ne_zero_of_isSpaceGo {c : Char} (h : isSpaceGo c = true) : c ≠ Char.ofNat 0 := by
  intro he
  rw [he, isSpaceGo_zero] at h
  cases h

theorem ne_zero_of_isDigitGo {c : Char} (h : isDigitGo c = true) : c ≠ Char.ofNat 0 := by
  intro he
  rw [he, isDigitGo_zero] at h
  cases h

theorem not_space_of_isDigitGo {c : Char} (h : isDigitGo c = true) : isSpaceGo c = false := by
  simp only [isDigitGo, Bool.and_eq_true, decide_eq_true_eq] at h
  simp only [isSpaceGo, Bool.or_eq_false_iff, beq_eq_false_iff_ne, ne_eq]
  omega

theorem readChar_input (l : Lexer) : (readChar l).input = l.input := rfl

theorem readChar_pos (l : Lexer) : (readChar l).pos = l.pos + 1 := rfl

theorem wfl_ch {l : Lexer} (h : WFL l) : l.ch = (laSuffix l).headD (Char.ofNat 0) := by
  obtain ⟨h1, h2, h3⟩ := h
  by_cases hlt : l.pos - 1 < l.input.length
  · rw [h3, laSuffix, List.drop_eq_getElem_cons hlt]
    simp [List.getD_eq_getElem?_getD, List.getElem?_eq_getElem hlt]
  · rw [h3, laSuffix, List.drop_eq_nil_of_le (by omega), List.getD_eq_getElem?_getD,
      List.getElem?_eq_none (show l.input.length ≤ l.pos - 1 by omega)]
    rfl

theorem wfl_cons {l : Lexer} (h : WFL l) (hne : l.ch ≠ Char.ofNat 0) :
    l.pos ≤ l.input.length ∧ laSuffix l = l.ch :: laSuffix (readChar l) ∧ WFL (readChar l) := by
  obtain ⟨h1, h2, h3⟩ := h
  have hlt : l.pos - 1 < l.input.length := by
    by_contra hge
    refine hne ?_
    rw [h3, List.getD_eq_getElem?_getD,
      List.getElem?_eq_none (show l.input.length ≤ l.pos - 1 by omega)]
    rfl
  have hle : l.pos ≤ l.input.length := by omega
  have hch : l.ch = l.input[l.pos - 1] := by
    rw [h3, List.getD_eq_getElem?_getD, List.getElem?_eq_getElem hlt]
    rfl
  refine ⟨hle, ?_, ?_, ?_, ?_⟩
  · rw [laSuffix, List.drop_eq_getElem_cons hlt, hch,
      show l.pos - 1 + 1 = l.pos by omega]
    rfl
  · show 1 ≤ l.pos + 1
    omega
  · show l.pos + 1 ≤ l.input.length + 1
    omega
  · show (readChar l).ch = (readChar l).input.getD ((readChar l).pos - 1) (Char.ofNat 0)
    simp only [readChar, Nat.add_sub_cancel]
    by_cases hge : l.pos ≥ l.input.length
    · rw [if_pos hge, List.getD_eq_getElem?_getD,
        List.getElem?_eq_none (show l.input.length ≤ l.pos by omega)]
      rfl
    · rw [if_neg hge]

theorem wfl_NewLexer (s : List Char) : WFL (NewLexer s) := by
  refine ⟨le_refl 1, by simp [NewLexer, readChar], ?_⟩
  show (NewLexer s).ch = (NewLexer s).input.getD ((NewLexer s).pos - 1) (Char.ofNat 0)
  simp only [NewLexer, readChar, Nat.add_sub_cancel]
  by_cases h0 : 0 ≥ s.length
  · rw [if_pos h0, List.getD_eq_getElem?_getD,
      List.getElem?_eq_none (show s.length ≤ 0 by omega)]
    rfl
  · rw [if_neg h0]

theorem laSuffix_NewLexer (s : List Char) : laSuffix (NewLexer s) = s := by
  simp [laSuffix, NewLexer, readChar]

/-! Simulation of the lexer loops by `dropWhile` / `takeWhile` on the
unconsumed suffix. -/

theorem skipWhitespaceAux_sim :
    ∀ n l, l.input.length + 1 - l.pos < n → WFL l →
      WFL (skipWhitespaceAux n l) ∧ (skipWhitespaceAux n l).input = l.input ∧
      laSuffix (skipWhitespaceAux n l) = (laSuffix l).dropWhile isSpaceGo ∧
      l.pos ≤ (skipWhitespaceAux n l).pos := by
  intro n
  induction n with
  | zero =>
    intro l hn hw
    omega
  | succ n ih =>
    intro l hn hw
    cases hsp : isSpaceGo l.ch with
    | true =>
      have hne : l.ch ≠ Char.ofNat 0 := ne_zero_of_isSpaceGo hsp
      obtain ⟨hle, hsfx, hwf'⟩ := wfl_cons hw hne
      rw [skipWhitespaceAux, hsp]
      simp only [if_true]
      obtain ⟨ih1, ih2, ih3, ih4⟩ := ih (readChar l) (by simp [readChar]; omega) hwf'
      refine ⟨ih1, by rw [ih2]; rfl, ?_, ?_⟩
      · rw [ih3, hsfx, List.dropWhile_cons, hsp]
        simp
      · rw [readChar_pos] at ih4
        omega
    | false =>
      rw [skipWhitespaceAux, hsp]
      simp only [Bool.false_eq_true, if_false]
      refine ⟨hw, by trivial, ?_, by trivial⟩
      cases hsfx : laSuffix l with
      | nil => simp [hsfx]
      | cons c cs =>
        have hc : c = l.ch := by rw [wfl_ch hw, hsfx]; rfl
        rw [List.dropWhile_cons, hc, hsp]
        simp

theorem skipWhitespace_sim {l : Lexer} (hw : WFL l) :
    WFL (skipWhitespace l) ∧ (skipWhitespace l).input = l.input ∧
    laSuffix (skipWhitespace l) = (laSuffix l).dropWhile isSpaceGo ∧
    l.pos ≤ (skipWhitespace l).pos :=
  skipWhitespaceAux_sim (l.input.length + 2) l (by omega) hw

theorem readDigitsAux_sim :
    ∀ n l, l.input.length + 1 - l.pos < n → WFL l →
      WFL (readDigitsAux n l) ∧ (readDigitsAux n l).input = l.input ∧
      laSuffix (readDigitsAux n l) = (laSuffix l).dropWhile isDigitGo ∧
      (readDigitsAux n l).pos - 1 = (l.pos - 1) + ((laSuffix l).takeWhile isDigitGo).length ∧
      l.pos ≤ (readDigitsAux n l).pos := by
  intro n
  induction n with
  | zero =>
    intro l hn hw
    omega
  | succ n ih =>
    intro l hn hw
    cases hsp : isDigitGo l.ch with
    | true =>
      have hne : l.ch ≠ Char.ofNat 0 := ne_zero_of_isDigitGo hsp
      obtain ⟨hle, hsfx, hwf'⟩ := wfl_cons hw hne
      rw [readDigitsAux, hsp]
      simp only [if_true]
      obtain ⟨ih1, ih2, ih3, ih4, ih5⟩ := ih (readChar l) (by simp [readChar]; omega) hwf'
      obtain ⟨hw1, _, _⟩ := hw
      refine ⟨ih1, by rw [ih2]; rfl, ?_, ?_, ?_⟩
      · rw [ih3, hsfx, List.dropWhile_cons, hsp]
        simp
      · rw [hsfx, List.takeWhile_cons, hsp]
        simp only [if_true, List.length_cons]
        rw [ih4, readChar_pos]
        omega
      · rw [readChar_pos] at ih5
        omega
    | false =>
      rw [readDigitsAux, hsp]
      simp only [Bool.false_eq_true, if_false]
      refine ⟨hw, by trivial, ?_, ?_, by trivial⟩
      · cases hsfx : laSuffix l with
        | nil => simp [hsfx]
        | cons c cs =>
          have hc : c = l.ch := by rw [wfl_ch hw, hsfx]; rfl
          rw [List.dropWhile_cons, hc, hsp]
          simp
      · cases hsfx : laSuffix l with
        | nil => simp
        | cons c cs =>
          have hc : c = l.ch := by rw [wfl_ch hw, hsfx]; rfl
          rw [List.takeWhile_cons, hc, hsp]
          simp

theorem readDigits_sim {l : Lexer} (hw : WFL l) :
    WFL (readDigits l) ∧ (readDigits l).input = l.input ∧
    laSuffix (readDigits l) = (laSuffix l).dropWhile isDigitGo ∧
    (readDigits l).pos - 1 = (l.pos - 1) + ((laSuffix l).takeWhile isDigitGo).length ∧
    l.pos ≤ (readDigits l).pos :=
  readDigitsAux_sim (l.input.length + 2) l (by omega) hw

theorem take_takeWhile_length (p : Char → Bool) (xs : List Char) :
    xs.take ((xs.takeWhile p).length) = xs.takeWhile p := by
  induction xs with
  | nil => rfl
  | cons c cs ih =>
    rw [List.takeWhile_cons]
    cases hp : p c
    · simp
    · simp only [if_true, List.length_cons, List.take_succ_cons, ih]

theorem readNumber_sim {l : Lexer} (hw : WFL l) :
    (readNumber l).1 = String.mk ((laSuffix l).takeWhile isDigitGo) ∧
    WFL (readNumber l).2 ∧ (readNumber l).2.input = l.input ∧
    laSuffix (readNumber l).2 = (laSuffix l).dropWhile isDigitGo ∧
    l.pos ≤ (readNumber l).2.pos := by
  obtain ⟨hw2, hin2, hsfx2, hlen2, hpos2⟩ := readDigits_sim hw
  refine ⟨?_, hw2, hin2, hsfx2, hpos2⟩
  show String.mk (((readDigits l).input.take ((readDigits l).pos - 1)).drop (l.pos - 1)) = _
  rw [hin2, hlen2]
  rw [show (l.input.take (l.pos - 1 + ((laSuffix l).takeWhile isDigitGo).length)).drop
        (l.pos - 1) = (l.input.drop (l.pos - 1)).take ((laSuffix l).takeWhile isDigitGo).length
      by rw [List.drop_take]; congr 1; omega]
  rw [← laSuffix, take_takeWhile_length]

theorem NextToken_sim {l : Lexer} (hw : WFL l) :
    (NextToken l).1 = (tokenizeStep (laSuffix l)).1 ∧
    WFL (NextToken l).2 ∧ (NextToken l).2.input = l.input ∧
    laSuffix (NextToken l).2 = (tokenizeStep (laSuffix l)).2 ∧
    l.pos ≤ (NextToken l).2.pos := by
  obtain ⟨hw1, hin1, hsfx1, hpos1⟩ := skipWhitespace_sim hw
  cases hd : laSuffix (skipWhitespace l) with
  | nil =>
    have hch : (skipWhitespace l).ch = Char.ofNat 0 := by rw [wfl_ch hw1, hd]; rfl
    have hdw : (laSuffix l).dropWhile isSpaceGo = [] := by rw [← hsfx1, hd]
    simp only [NextToken, tokenizeStep, hdw, hch, if_pos rfl]
    exact ⟨rfl, hw1, hin1, hd, hpos1⟩
  | cons c rest =>
    have hch : (skipWhitespace l).ch = c := by rw [wfl_ch hw1, hd]; rfl
    have hdw : (laSuffix l).dropWhile isSpaceGo = c :: rest := by rw [← hsfx1, hd]
    by_cases hc0 : c = Char.ofNat 0
    · have hNT : NextToken l = (⟨TokenType.EOF, ""⟩, skipWhitespace l) := by
        simp [NextToken, hch, hc0]
      have hTS : tokenizeStep (laSuffix l) = (⟨TokenType.EOF, ""⟩, (Char.ofNat 0) :: rest) := by
        simp [tokenizeStep, hdw, hc0]
      rw [hNT, hTS]
      refine ⟨rfl, hw1, hin1, ?_, hpos1⟩
      rw [hd, hc0]
    · cases hdig : isDigitGo c with
      | true =>
        obtain ⟨hv, hw2, hin2, hsfx2, hpos2⟩ := readNumber_sim hw1
        have hNT : NextToken l =
            (⟨TokenType.NUMBER, (readNumber (skipWhitespace l)).1⟩,
              (readNumber (skipWhitespace l)).2) := by
          simp only [NextToken]
          rw [if_neg (by rw [hch]; exact hc0), if_pos (by rw [hch]; exact hdig)]
        have hTS : tokenizeStep (laSuffix l) =
            (⟨TokenType.NUMBER, String.mk ((c :: rest).takeWhile isDigitGo)⟩,
              (c :: rest).dropWhile isDigitGo) := by
          simp only [tokenizeStep, hdw]
          rw [if_neg hc0, if_pos hdig]
        rw [hNT, hTS]
        refine ⟨?_, hw2, by rw [hin2, hin1], ?_,
          by show l.pos ≤ (readNumber (skipWhitespace l)).2.pos; omega⟩
        · rw [hv, hd]
        · rw [hsfx2, hd]
      | false =>
        have hne : (skipWhitespace l).ch ≠ Char.ofNat 0 := by rw [hch]; exact hc0
        obtain ⟨hle, hcons, hwrc⟩ := wfl_cons hw1 hne
        have hrest : laSuffix (readChar (skipWhitespace l)) = rest := by
          rw [hd, hch] at hcons
          exact (List.cons_eq_cons.mp hcons).2.symm
        have hNT : NextToken l = (opToken c, readChar (skipWhitespace l)) := by
          simp only [NextToken]
          rw [if_neg (by rw [hch]; exact hc0), if_neg (by rw [hch, hdig]; simp), hch]
        have hTS : tokenizeStep (laSuffix l) = (opToken c, rest) := by
          simp only [tokenizeStep, hdw]
          rw [if_neg hc0, if_neg (by rw [hdig]; simp)]
        rw [hNT, hTS]
        refine ⟨rfl, hwrc, by rw [readChar_input, hin1], hrest, ?_⟩
        rw [readChar_pos]
        omega

/-! Sync stepping, token computations on printed streams. -/

theorem Sync_advance {p : Parser} {cs : List Char} (h : Sync p cs) :
    Sync (advanceTok p) (tokenizeStep cs).2 := by
  obtain ⟨hw, _hc, hs⟩ := h
  obtain ⟨h1, h2, _h3, h4, _h5⟩ := NextToken_sim hw
  exact ⟨h2, by rw [show (advanceTok p).curr = (NextToken p.lexer).1 from rfl, h1, hs],
    by rw [show (advanceTok p).lexer = (NextToken p.lexer).2 from rfl, h4, hs]⟩

theorem Sync_input {p : Parser} {cs : List Char} (h : Sync p cs) :
    (advanceTok p).lexer.input = p.lexer.input := by
  obtain ⟨hw, _, _⟩ := h
  obtain ⟨_, _, h3, _, _⟩ := NextToken_sim hw
  exact h3

theorem takeWhile_digits_append {ds rest : List Char} (hdig : ∀ c ∈ ds, isDigitGo c = true)
    (hnb : NB rest) : (ds ++ rest).takeWhile isDigitGo = ds := by
  induction ds with
  | nil =>
    rcases hnb with h | h
    · simp [h]
    · cases rest with
      | nil => rfl
      | cons r rs =>
        simp only [List.headD_cons] at h
        simp [List.takeWhile_cons, h]
  | cons d ds ih =>
    rw [List.cons_append, List.takeWhile_cons, hdig d (by simp)]
    simp only [if_true, List.cons.injEq, true_and]
    exact ih (fun c hc => hdig c (by simp [hc]))

theorem dropWhile_digits_append {ds rest : List Char} (hdig : ∀ c ∈ ds, isDigitGo c = true)
    (hnb : NB rest) : (ds ++ rest).dropWhile isDigitGo = rest := by
  induction ds with
  | nil =>
    rcases hnb with h | h
    · simp [h]
    · cases rest with
      | nil => rfl
      | cons r rs =>
        simp only [List.headD_cons] at h
        simp [List.dropWhile_cons, h]
  | cons d ds ih =>
    rw [List.cons_append, List.dropWhile_cons, hdig d (by simp)]
    simp only [if_true]
    exact ih (fun c hc => hdig c (by simp [hc]))

theorem tokenizeStep_digits {ds rest : List Char} (hne : ds ≠ [])
    (hdig : ∀ c ∈ ds, isDigitGo c = true) (hnb : NB rest) :
    tokenizeStep (ds ++ rest) = (⟨TokenType.NUMBER, String.mk ds⟩, rest) := by
  cases ds with
  | nil => exact absurd rfl hne
  | cons d ds =>
    have hd : isDigitGo d = true := hdig d (by simp)
    have hds : isSpaceGo d = false := not_space_of_isDigitGo hd
    have hdrop : ((d :: ds) ++ rest).dropWhile isSpaceGo = d :: (ds ++ rest) := by
      rw [List.cons_append, List.dropWhile_cons, hds]
      simp
    simp only [tokenizeStep, hdrop]
    rw [if_neg (ne_zero_of_isDigitGo hd), if_pos hd]
    rw [show d :: (ds ++ rest) = (d :: ds) ++ rest from rfl]
    rw [takeWhile_digits_append hdig hnb, dropWhile_digits_append hdig hnb]

theorem tokenizeStep_op {c : Char} {rest : List Char} (hns : isSpaceGo c = false)
    (hnd : isDigitGo c = false) (hnz : c ≠ Char.ofNat 0) :
    tokenizeStep (c :: rest) = (opToken c, rest) := by
  have hdrop : (c :: rest).dropWhile isSpaceGo = c :: rest := by
    rw [List.dropWhile_cons, hns]
    simp
  simp only [tokenizeStep, hdrop]
  rw [if_neg hnz, if_neg (by rw [hnd]; simp)]

theorem opToken_plus : opToken '+' = ⟨TokenType.PLUS, "+"⟩ := rfl

theorem opToken_minus : opToken '-' = ⟨TokenType.MINUS, "-"⟩ := by decide

theorem opToken_star : opToken '*' = ⟨TokenType.MULT, "*"⟩ := by decide

theorem opToken_slash : opToken '/' = ⟨TokenType.DIV, "/"⟩ := by decide

theorem opToken_lparen : opToken '(' = ⟨TokenType.LPAREN, "("⟩ := by decide

theorem opToken_rparen : opToken ')' = ⟨TokenType.RPAREN, ")"⟩ := by decide

/-! Fast failure of the parser on tokens that cannot begin a factor. -/

theorem parseFactor_bad {p : Parser} (h1 : p.curr.type ≠ TokenType.NUMBER)
    (h2 : p.curr.type ≠ TokenType.LPAREN) (fuel : Nat) :
    parseFactor (fuel + 1) p = .error (factorErrMsg p.curr.type) := by
  simp only [parseFactor]
  rw [if_neg h1, if_neg h2]

theorem parseTerm_bad {p : Parser} (h1 : p.curr.type ≠ TokenType.NUMBER)
    (h2 : p.curr.type ≠ TokenType.LPAREN) (fuel : Nat) :
    parseTerm (fuel + 2) p = .error (factorErrMsg p.curr.type) := by
  simp only [parseTerm, parseFactor_bad h1 h2]

theorem parseExpr_bad {p : Parser} (h1 : p.curr.type ≠ TokenType.NUMBER)
    (h2 : p.curr.type ≠ TokenType.LPAREN) (fuel : Nat) :
    parseExpr (fuel + 3) p = .error (factorErrMsg p.curr.type) := by
  simp only [parseExpr, parseTerm_bad h1 h2]

/-! Spine decompositions of derivations. -/

theorem printPsT_append (ps qs : List (Token × GFactor)) :
    printPsT (ps ++ qs) = printPsT ps ++ printPsT qs := by
  simp [printPsT]

theorem printPsE_append (ps qs : List (Token × GTerm)) :
    printPsE (ps ++ qs) = printPsE ps ++ printPsE qs := by
  simp [printPsE]

theorem printT_spine : ∀ t : GTerm, printT t = printF (spineT t).1 ++ printPsT (spineT t).2
  | .factor f => by simp [printT, spineT, printPsT]
  | .mul t f => by
    have ih := printT_spine t
    simp [printT, spineT, printPsT_append, printPsT, ih]
  | .div t f => by
    have ih := printT_spine t
    simp [printT, spineT, printPsT_append, printPsT, ih]

theorem printE_spine : ∀ e : GExpr, printE e = printT (spineE e).1 ++ printPsE (spineE e).2
  | .term t => by simp [printE, spineE, printPsE]
  | .add e t => by
    have ih := printE_spine e
    simp [printE, spineE, printPsE_append, printPsE, ih]
  | .sub e t => by
    have ih := printE_spine e
    simp [printE, spineE, printPsE_append, printPsE, ih]

theorem treeT_spine : ∀ t : GTerm, treeT t = foldPsT (treeF (spineT t).1) (spineT t).2
  | .factor f => by simp [treeT, spineT, foldPsT]
  | .mul t f => by
    have ih := treeT_spine t
    simp [treeT, spineT, foldPsT, ih]
  | .div t f => by
    have ih := treeT_spine t
    simp [treeT, spineT, foldPsT, ih]

theorem treeE_spine : ∀ e : GExpr, treeE e = foldPsE (treeT (spineE e).1) (spineE e).2
  | .term t => by simp [treeE, spineE, foldPsE]
  | .add e t => by
    have ih := treeE_spine e
    simp [treeE, spineE, foldPsE, ih]
  | .sub e t => by
    have ih := treeE_spine e
    simp [treeE, spineE, foldPsE, ih]

theorem spineT_fst_size : ∀ t : GTerm, sizeOf (spineT t).1 < sizeOf t
  | .factor f => by simp [spineT]
  | .mul t f => by have := spineT_fst_size t; simp [spineT]; omega
  | .div t f => by have := spineT_fst_size t; simp [spineT]; omega

theorem spineE_fst_size : ∀ e : GExpr, sizeOf (spineE e).1 < sizeOf e
  | .term t => by simp [spineE]
  | .add e t => by have := spineE_fst_size e; simp [spineE]; omega
  | .sub e t => by have := spineE_fst_size e; simp [spineE]; omega

theorem spineT_mem_size : ∀ (t : GTerm) (q : Token × GFactor), q ∈ (spineT t).2 →
    sizeOf q.2 < sizeOf t
  | .factor f => by simp [spineT]
  | .mul t f => by
    intro q hq
    simp only [spineT, List.mem_append, List.mem_singleton] at hq
    rcases hq with hq | hq
    · have := spineT_mem_size t q hq
      simp
      omega
    · subst hq
      simp
  | .div t f => by
    intro q hq
    simp only [spineT, List.mem_append, List.mem_singleton] at hq
    rcases hq with hq | hq
    · have := spineT_mem_size t q hq
      simp
      omega
    · subst hq
      simp

theorem spineE_mem_size : ∀ (e : GExpr) (q : Token × GTerm), q ∈ (spineE e).2 →
    sizeOf q.2 < sizeOf e
  | .term t => by simp [spineE]
  | .add e t => by
    intro q hq
    simp only [spineE, List.mem_append, List.mem_singleton] at hq
    rcases hq with hq | hq
    · have := spineE_mem_size e q hq
      simp
      omega
    · subst hq
      simp
  | .sub e t => by
    intro q hq
    simp only [spineE, List.mem_append, List.mem_singleton] at hq
    rcases hq with hq | hq
    · have := spineE_mem_size e q hq
      simp
      omega
    · subst hq
      simp

theorem spineT_wf : ∀ t : GTerm, gwfT t = true →
    gwfF (spineT t).1 = true ∧ ∀ q ∈ (spineT t).2, gwfF q.2 = true
  | .factor f => by simp [spineT, gwfT]
  | .mul t f => by
    intro h
    simp only [gwfT, Bool.and_eq_true] at h
    obtain ⟨ih1, ih2⟩ := spineT_wf t h.1
    refine ⟨ih1, ?_⟩
    intro q hq
    simp only [spineT, List.mem_append, List.mem_singleton] at hq
    rcases hq with hq | hq
    · exact ih2 q hq
    · subst hq; exact h.2
  | .div t f => by
    intro h
    simp only [gwfT, Bool.and_eq_true] at h
    obtain ⟨ih1, ih2⟩ := spineT_wf t h.1
    refine ⟨ih1, ?_⟩
    intro q hq
    simp only [spineT, List.mem_append, List.mem_singleton] at hq
    rcases hq with hq | hq
    · exact ih2 q hq
    · subst hq; exact h.2

theorem spineE_wf : ∀ e : GExpr, gwfE e = true →
    gwfT (spineE e).1 = true ∧ ∀ q ∈ (spineE e).2, gwfT q.2 = true
  | .term t => by simp [spineE, gwfE]
  | .add e t => by
    intro h
    simp only [gwfE, Bool.and_eq_true] at h
    obtain ⟨ih1, ih2⟩ := spineE_wf e h.1
    refine ⟨ih1, ?_⟩
    intro q hq
    simp only [spineE, List.mem_append, List.mem_singleton] at hq
    rcases hq with hq | hq
    · exact ih2 q hq
    · subst hq; exact h.2
  | .sub e t => by
    intro h
    simp only [gwfE, Bool.and_eq_true] at h
    obtain ⟨ih1, ih2⟩ := spineE_wf e h.1
    refine ⟨ih1, ?_⟩
    intro q hq
    simp only [spineE, List.mem_append, List.mem_singleton] at hq
    rcases hq with hq | hq
    · exact ih2 q hq
    · subst hq; exact h.2

theorem spineT_ops : ∀ (t : GTerm) (q : Token × GFactor), q ∈ (spineT t).2 →
    q.1 = (⟨TokenType.MULT, "*"⟩ : Token) ∨ q.1 = (⟨TokenType.DIV, "/"⟩ : Token)
  | .factor f => by simp [spineT]
  | .mul t f => by
    intro q hq
    simp only [spineT, List.mem_append, List.mem_singleton] at hq
    rcases hq with hq | hq
    · exact spineT_ops t q hq
    · subst hq; exact Or.inl rfl
  | .div t f => by
    intro q hq
    simp only [spineT, List.mem_append, List.mem_singleton] at hq
    rcases hq with hq | hq
    · exact spineT_ops t q hq
    · subst hq; exact Or.inr rfl

theorem spineE_ops : ∀ (e : GExpr) (q : Token × GTerm), q ∈ (spineE e).2 →
    q.1 = (⟨TokenType.PLUS, "+"⟩ : Token) ∨ q.1 = (⟨TokenType.MINUS, "-"⟩ : Token)
  | .term t => by simp [spineE]
  | .add e t => by
    intro q hq
    simp only [spineE, List.mem_append, List.mem_singleton] at hq
    rcases hq with hq | hq
    · exact spineE_ops e q hq
    · subst hq; exact Or.inl rfl
  | .sub e t => by
    intro q hq
    simp only [spineE, List.mem_append, List.mem_singleton] at hq
    rcases hq with hq | hq
    · exact spineE_ops e q hq
    · subst hq; exact Or.inr rfl

mutual

theorem printF_len : ∀ f : GFactor, gwfF f = true → 1 ≤ (printF f).length
  | .num ds => by
    intro h
    simp only [gwfF, Bool.and_eq_true, Bool.not_eq_true'] at h
    have : ds ≠ [] := by
      intro he
      rw [he] at h
      simp at h
    simp [printF]
    cases ds with
    | nil => exact absurd rfl this
    | cons d ds => simp
  | .paren e => by
    intro h
    simp [printF]

theorem printT_len : ∀ t : GTerm, gwfT t = true → 1 ≤ (printT t).length
  | .factor f => fun h => printF_len f (by simpa [gwfT] using h)
  | .mul t f => by
    intro h
    simp only [gwfT, Bool.and_eq_true] at h
    have := printT_len t h.1
    simp [printT]
    omega
  | .div t f => by
    intro h
    simp only [gwfT, Bool.and_eq_true] at h
    have := printT_len t h.1
    simp [printT]
    omega

end

/-! Correctness of the two parser loops along a spine. -/

theorem printPsT_cons (q : Token × GFactor) (ps : List (Token × GFactor)) :
    printPsT (q :: ps) = q.1.value.toList ++ (printF q.2 ++ printPsT ps) := by
  simp [printPsT]

theorem printPsE_cons (q : Token × GTerm) (ps : List (Token × GTerm)) :
    printPsE (q :: ps) = q.1.value.toList ++ (printT q.2 ++ printPsE ps) := by
  simp [printPsE]

theorem NB_printPsT {ps : List (Token × GFactor)} {rest : List Char}
    (hok : ∀ q ∈ ps, TPairOK q) (hnb : NB rest) : NB (printPsT ps ++ rest) := by
  cases ps with
  | nil => simpa [printPsT] using hnb
  | cons q ps =>
    obtain ⟨hop, _, _⟩ := hok q (by simp)
    right
    rw [printPsT_cons]
    rcases hop with h | h
    · rw [h]
      show isDigitGo ((('*' :: (printF q.2 ++ printPsT ps)) ++ rest).headD (Char.ofNat 0)) = false
      rw [List.cons_append, List.headD_cons]
      decide
    · rw [h]
      show isDigitGo ((('/' :: (printF q.2 ++ printPsT ps)) ++ rest).headD (Char.ofNat 0)) = false
      rw [List.cons_append, List.headD_cons]
      decide

theorem NB_printPsE {ps : List (Token × GTerm)} {rest : List Char}
    (hok : ∀ q ∈ ps, EPairOK q) (hnb : NB rest) : NB (printPsE ps ++ rest) := by
  cases ps with
  | nil => simpa [printPsE] using hnb
  | cons q ps =>
    obtain ⟨hop, _, _⟩ := hok q (by simp)
    right
    rw [printPsE_cons]
    rcases hop with h | h
    · rw [h]
      show isDigitGo ((('+' :: (printT q.2 ++ printPsE ps)) ++ rest).headD (Char.ofNat 0)) = false
      rw [List.cons_append, List.headD_cons]
      decide
    · rw [h]
      show isDigitGo ((('-' :: (printT q.2 ++ printPsE ps)) ++ rest).headD (Char.ofNat 0)) = false
      rw [List.cons_append, List.headD_cons]
      decide


theorem tokenizeStep_opTok {tk : Token} {rest : List Char}
    (h : tk = (⟨TokenType.PLUS, "+"⟩ : Token) ∨ tk = (⟨TokenType.MINUS, "-"⟩ : Token) ∨
      tk = (⟨TokenType.MULT, "*"⟩ : Token) ∨ tk = (⟨TokenType.DIV, "/"⟩ : Token)) :
    tokenizeStep (tk.value.toList ++ rest) = (tk, rest) := by
  rcases h with h | h | h | h <;> subst h
  · rw [show (⟨TokenType.PLUS, "+"⟩ : Token).value.toList ++ rest = '+' :: rest from rfl,
      tokenizeStep_op (by decide) (by decide) (by decide), opToken_plus]
  · rw [show (⟨TokenType.MINUS, "-"⟩ : Token).value.toList ++ rest = '-' :: rest from rfl,
      tokenizeStep_op (by decide) (by decide) (by decide), opToken_minus]
  · rw [show (⟨TokenType.MULT, "*"⟩ : Token).value.toList ++ rest = '*' :: rest from rfl,
      tokenizeStep_op (by decide) (by decide) (by decide), opToken_star]
  · rw [show (⟨TokenType.DIV, "/"⟩ : Token).value.toList ++ rest = '/' :: rest from rfl,
      tokenizeStep_op (by decide) (by decide) (by decide), opToken_slash]

theorem parseTermLoop_sim :
    ∀ (ps : List (Token × GFactor)) (acc : Expr) (p : Parser) (rest : List Char),
      (∀ q ∈ ps, TPairOK q) →
      Sync p (printPsT ps ++ rest) → NB rest →
      (tokenizeStep rest).1.type ≠ TokenType.MULT →
      (tokenizeStep rest).1.type ≠ TokenType.DIV →
      ∀ fuel, 3 * (printPsT ps).length + 1 ≤ fuel →
        ∃ p', parseTermLoop fuel acc p = .ok (foldPsT acc ps, p') ∧ Sync p' rest := by
  intro ps
  induction ps with
  | nil =>
    intro acc p rest _hok hsync hnb hnm hnd fuel hfuel
    rw [show printPsT [] = [] from rfl, List.nil_append] at hsync
    obtain ⟨hw, hc, hs⟩ := hsync
    cases fuel with
    | zero => omega
    | succ fuel =>
      have hcond : ¬(p.curr.type = TokenType.MULT ∨ p.curr.type = TokenType.DIV) := by
        rintro (h | h)
        · rw [hc] at h; exact hnm h
        · rw [hc] at h; exact hnd h
      refine ⟨p, ?_, ⟨hw, hc, hs⟩⟩
      simp only [parseTermLoop]
      rw [if_neg hcond]
      rfl
  | cons q ps ih =>
    intro acc p rest hok hsync hnb hnm hnd fuel hfuel
    obtain ⟨hop, hwf, hfOK⟩ := hok q (by simp)
    have hstep : tokenizeStep (printPsT (q :: ps) ++ rest) =
        (q.1, printF q.2 ++ (printPsT ps ++ rest)) := by
      rw [printPsT_cons, List.append_assoc,
        tokenizeStep_opTok (by
          rcases hop with h | h
          · exact Or.inr (Or.inr (Or.inl h))
          · exact Or.inr (Or.inr (Or.inr h))), List.append_assoc]
    have hlen : (printPsT (q :: ps)).length =
        1 + (printF q.2).length + (printPsT ps).length := by
      rcases hop with h | h <;> rw [printPsT_cons, h] <;> simp <;> omega
    obtain ⟨hw, hcur, hsfx⟩ := hsync
    have hcurr : p.curr = q.1 := by rw [hcur, hstep]
    rw [hlen] at hfuel
    cases fuel with
    | zero => omega
    | succ m =>
      have hcond : p.curr.type = TokenType.MULT ∨ p.curr.type = TokenType.DIV := by
        rw [hcurr]
        rcases hop with h | h
        · exact Or.inl (by rw [h])
        · exact Or.inr (by rw [h])
      have hsync2 : Sync (advanceTok p) (printF q.2 ++ (printPsT ps ++ rest)) := by
        have h2 := Sync_advance ⟨hw, hcur, hsfx⟩
        rw [hstep] at h2
        exact h2
      have hnb2 : NB (printPsT ps ++ rest) :=
        NB_printPsT (fun r hr => hok r (by simp [hr])) hnb
      obtain ⟨p3, hfac, hsync3⟩ :=
        hfOK hwf (advanceTok p) (printPsT ps ++ rest) hsync2 hnb2 m (by omega)
      obtain ⟨p', hloop, hsync'⟩ :=
        ih (Expr.BinaryOp acc q.1 (treeF q.2)) p3 rest (fun r hr => hok r (by simp [hr]))
          hsync3 hnb hnm hnd m (by omega)
      refine ⟨p', ?_, hsync'⟩
      simp only [parseTermLoop]
      rw [if_pos hcond, hfac]
      show parseTermLoop m (Expr.BinaryOp acc p.curr (treeF q.2)) p3 =
        .ok (foldPsT acc (q :: ps), p')
      rw [hcurr]
      exact hloop

theorem parseExprLoop_sim :
    ∀ (ps : List (Token × GTerm)) (acc : Expr) (p : Parser) (rest : List Char),
      (∀ q ∈ ps, EPairOK q) →
      Sync p (printPsE ps ++ rest) → NB rest →
      (tokenizeStep rest).1.type ≠ TokenType.PLUS →
      (tokenizeStep rest).1.type ≠ TokenType.MINUS →
      (tokenizeStep rest).1.type ≠ TokenType.MULT →
      (tokenizeStep rest).1.type ≠ TokenType.DIV →
      ∀ fuel, 3 * (printPsE ps).length + 1 ≤ fuel →
        ∃ p', parseExprLoop fuel acc p = .ok (foldPsE acc ps, p') ∧ Sync p' rest := by
  intro ps
  induction ps with
  | nil =>
    intro acc p rest _hok hsync hnb hnp hnmi hnm hnd fuel hfuel
    rw [show printPsE [] = [] from rfl, List.nil_append] at hsync
    obtain ⟨hw, hc, hs⟩ := hsync
    cases fuel with
    | zero => omega
    | succ fuel =>
      have hcond : ¬(p.curr.type = TokenType.PLUS ∨ p.curr.type = TokenType.MINUS) := by
        rintro (h | h)
        · rw [hc] at h; exact hnp h
        · rw [hc] at h; exact hnmi h
      refine ⟨p, ?_, ⟨hw, hc, hs⟩⟩
      simp only [parseExprLoop]
      rw [if_neg hcond]
      rfl
  | cons q ps ih =>
    intro acc p rest hok hsync hnb hnp hnmi hnm hnd fuel hfuel
    obtain ⟨hop, hwf, htOK⟩ := hok q (by simp)
    have hstep : tokenizeStep (printPsE (q :: ps) ++ rest) =
        (q.1, printT q.2 ++ (printPsE ps ++ rest)) := by
      rw [printPsE_cons, List.append_assoc,
        tokenizeStep_opTok (by
          rcases hop with h | h
          · exact Or.inl h
          · exact Or.inr (Or.inl h)), List.append_assoc]
    have hlen : (printPsE (q :: ps)).length =
        1 + (printT q.2).length + (printPsE ps).length := by
      rcases hop with h | h <;> rw [printPsE_cons, h] <;> simp <;> omega
    obtain ⟨hw, hcur, hsfx⟩ := hsync
    have hcurr : p.curr = q.1 := by rw [hcur, hstep]
    rw [hlen] at hfuel
    cases fuel with
    | zero => omega
    | succ m =>
      have hcond : p.curr.type = TokenType.PLUS ∨ p.curr.type = TokenType.MINUS := by
        rw [hcurr]
        rcases hop with h | h
        · exact Or.inl (by rw [h])
        · exact Or.inr (by rw [h])
      have hsync2 : Sync (advanceTok p) (printT q.2 ++ (printPsE ps ++ rest)) := by
        have h2 := Sync_advance ⟨hw, hcur, hsfx⟩
        rw [hstep] at h2
        exact h2
      have hnb2 : NB (printPsE ps ++ rest) :=
        NB_printPsE (fun r hr => hok r (by simp [hr])) hnb
      have hnm2 : (tokenizeStep (printPsE ps ++ rest)).1.type ≠ TokenType.MULT := by
        cases ps with
        | nil => simpa [printPsE] using hnm
        | cons r rs =>
          obtain ⟨hop', _, _⟩ := hok r (by simp)
          rw [show printPsE (r :: rs) ++ rest = r.1.value.toList ++
              (printT r.2 ++ printPsE rs ++ rest) by rw [printPsE_cons]; simp,
            tokenizeStep_opTok (by
              rcases hop' with h | h
              · exact Or.inl h
              · exact Or.inr (Or.inl h))]
          rcases hop' with h | h <;> rw [h] <;> decide
      have hnd2 : (tokenizeStep (printPsE ps ++ rest)).1.type ≠ TokenType.DIV := by
        cases ps with
        | nil => simpa [printPsE] using hnd
        | cons r rs =>
          obtain ⟨hop', _, _⟩ := hok r (by simp)
          rw [show printPsE (r :: rs) ++ rest = r.1.value.toList ++
              (printT r.2 ++ printPsE rs ++ rest) by rw [printPsE_cons]; simp,
            tokenizeStep_opTok (by
              rcases hop' with h | h
              · exact Or.inl h
              · exact Or.inr (Or.inl h))]
          rcases hop' with h | h <;> rw [h] <;> decide
      obtain ⟨p3, hterm, hsync3⟩ :=
        htOK hwf (advanceTok p) (printPsE ps ++ rest) hsync2 hnb2 hnm2 hnd2 m (by omega)
      obtain ⟨p', hloop, hsync'⟩ :=
        ih (Expr.BinaryOp acc q.1 (treeT q.2)) p3 rest (fun r hr => hok r (by simp [hr]))
          hsync3 hnb hnp hnmi hnm hnd m (by omega)
      refine ⟨p', ?_, hsync'⟩
      simp only [parseExprLoop]
      rw [if_pos hcond, hterm]
      show parseExprLoop m (Expr.BinaryOp acc p.curr (treeT q.2)) p3 =
        .ok (foldPsE acc (q :: ps), p')
      rw [hcurr]
      exact hloop

theorem parse_print_all (n : Nat) :
    (∀ f : GFactor, sizeOf f ≤ n → FactorOK f) ∧
    (∀ t : GTerm, sizeOf t ≤ n → TermOK t) ∧
    (∀ e : GExpr, sizeOf e ≤ n → ExprOK e) := by
  have ih : ∀ m, m < n →
      (∀ f : GFactor, sizeOf f ≤ m → FactorOK f) ∧
      (∀ t : GTerm, sizeOf t ≤ m → TermOK t) ∧
      (∀ e : GExpr, sizeOf e ≤ m → ExprOK e) :=
    fun m _ => parse_print_all m
  refine ⟨?_, ?_, ?_⟩
  · -- factors
    intro f hsz hwf p rest hsync hnb fuel hfuel
    cases f with
    | num ds =>
      simp only [gwfF, Bool.and_eq_true, Bool.not_eq_true', List.all_eq_true] at hwf
      have hne : ds ≠ [] := by
        intro he
        rw [he] at hwf
        simp at hwf
      have hdig : ∀ c ∈ ds, isDigitGo c = true := fun c hc => hwf.2 c hc
      have hdlen : 1 ≤ ds.length := by
        cases ds with
        | nil => exact absurd rfl hne
        | cons d l => simp
      have hstep : tokenizeStep (printF (.num ds) ++ rest) =
          (⟨TokenType.NUMBER, String.mk ds⟩, rest) := by
        rw [show printF (.num ds) = ds from rfl]
        exact tokenizeStep_digits hne hdig hnb
      obtain ⟨hw, hcur, hsfx⟩ := hsync
      have hplen : (printF (GFactor.num ds)).length = ds.length := rfl
      rw [hplen] at hfuel
      cases fuel with
      | zero => omega
      | succ m =>
        have hcurr : p.curr = ⟨TokenType.NUMBER, String.mk ds⟩ := by rw [hcur, hstep]
        refine ⟨advanceTok p, ?_, ?_⟩
        · simp only [parseFactor]
          rw [if_pos (by rw [hcurr])]
          rw [show treeF (.num ds) = Expr.Number (parseNumber (String.mk ds)) from rfl]
          rw [hcurr]
        · have h2 := Sync_advance ⟨hw, hcur, hsfx⟩
          rw [hstep] at h2
          exact h2
    | paren e =>
      have hwfe : gwfE e = true := hwf
      have hesz : sizeOf e < n := by
        have : sizeOf (GFactor.paren e) = 1 + sizeOf e := by simp
        omega
      have hstream : printF (.paren e) ++ rest = '(' :: (printE e ++ (')' :: rest)) := by
        rw [show printF (.paren e) = '(' :: (printE e ++ [')']) from rfl]
        simp
      have hstep : tokenizeStep (printF (.paren e) ++ rest) =
          ((⟨TokenType.LPAREN, "("⟩ : Token), printE e ++ (')' :: rest)) := by
        rw [hstream, tokenizeStep_op (by decide) (by decide) (by decide), opToken_lparen]
      obtain ⟨hw, hcur, hsfx⟩ := hsync
      have hcurr : p.curr = (⟨TokenType.LPAREN, "("⟩ : Token) := by rw [hcur, hstep]
      have hplen : (printF (GFactor.paren e)).length = (printE e).length + 2 := by
        rw [show printF (.paren e) = '(' :: (printE e ++ [')']) from rfl]
        simp
      rw [hplen] at hfuel
      cases fuel with
      | zero => omega
      | succ m =>
        have hsync2 : Sync (advanceTok p) (printE e ++ (')' :: rest)) := by
          have h2 := Sync_advance ⟨hw, hcur, hsfx⟩
          rw [hstep] at h2
          exact h2
        have hstepR : tokenizeStep (')' :: rest) = ((⟨TokenType.RPAREN, ")"⟩ : Token), rest) := by
          rw [tokenizeStep_op (by decide) (by decide) (by decide), opToken_rparen]
        obtain ⟨p3, hexp, hsync3⟩ :=
          (ih (sizeOf e) hesz).2.2 e (le_refl _) hwfe (advanceTok p) (')' :: rest) hsync2
            (Or.inr (by rw [List.headD_cons]; decide))
            (by rw [hstepR]; exact (by decide : TokenType.RPAREN ≠ TokenType.PLUS))
            (by rw [hstepR]; exact (by decide : TokenType.RPAREN ≠ TokenType.MINUS))
            (by rw [hstepR]; exact (by decide : TokenType.RPAREN ≠ TokenType.MULT))
            (by rw [hstepR]; exact (by decide : TokenType.RPAREN ≠ TokenType.DIV))
            m (by omega)
        obtain ⟨hw3, hcur3, hsfx3⟩ := hsync3
        have hcurr3 : p3.curr = (⟨TokenType.RPAREN, ")"⟩ : Token) := by rw [hcur3, hstepR]
        refine ⟨advanceTok p3, ?_, ?_⟩
        · simp only [parseFactor]
          rw [if_neg (by rw [hcurr]; decide), if_pos (by rw [hcurr]), hexp]
          show (if p3.curr.type = TokenType.RPAREN then
              Except.ok (treeE e, advanceTok p3) else Except.error "expected closing parenthesis")
            = Except.ok (treeF (.paren e), advanceTok p3)
          rw [if_pos (by rw [hcurr3])]
          rfl
        · have h3 := Sync_advance ⟨hw3, hcur3, hsfx3⟩
          rw [hstepR] at h3
          exact h3
  · -- terms
    intro t hsz hwf p rest hsync hnb hnm hnd fuel hfuel
    have hsp := printT_spine t
    have htr := treeT_spine t
    obtain ⟨hwf1, hwf2⟩ := spineT_wf t hwf
    have hfOK : FactorOK (spineT t).1 :=
      (ih (sizeOf (spineT t).1) (by have := spineT_fst_size t; omega)).1 _ (le_refl _)
    have hpairs : ∀ q ∈ (spineT t).2, TPairOK q := by
      intro q hq
      exact ⟨spineT_ops t q hq, hwf2 q hq,
        (ih (sizeOf q.2) (by have := spineT_mem_size t q hq; omega)).1 _ (le_refl _)⟩
    have hlen : (printT t).length =
        (printF (spineT t).1).length + (printPsT (spineT t).2).length := by
      rw [hsp]
      simp
    have hflen : 1 ≤ (printF (spineT t).1).length := printF_len _ hwf1
    rw [hsp, List.append_assoc] at hsync
    rw [hlen] at hfuel
    cases fuel with
    | zero => omega
    | succ m =>
      have hnb2 : NB (printPsT (spineT t).2 ++ rest) := NB_printPsT hpairs hnb
      obtain ⟨p1, hfac, hsync1⟩ :=
        hfOK hwf1 p (printPsT (spineT t).2 ++ rest) hsync hnb2 m (by omega)
      obtain ⟨p', hloop, hsync'⟩ :=
        parseTermLoop_sim (spineT t).2 (treeF (spineT t).1) p1 rest hpairs hsync1 hnb
          hnm hnd m (by omega)
      refine ⟨p', ?_, hsync'⟩
      simp only [parseTerm]
      rw [hfac]
      show parseTermLoop m (treeF (spineT t).1) p1 = Except.ok (treeT t, p')
      rw [htr]
      exact hloop
  · -- expressions
    intro e hsz hwf p rest hsync hnb hnp hnmi hnm hnd fuel hfuel
    have hsp := printE_spine e
    have htr := treeE_spine e
    obtain ⟨hwf1, hwf2⟩ := spineE_wf e hwf
    have htOK : TermOK (spineE e).1 :=
      (ih (sizeOf (spineE e).1) (by have := spineE_fst_size e; omega)).2.1 _ (le_refl _)
    have hpairs : ∀ q ∈ (spineE e).2, EPairOK q := by
      intro q hq
      exact ⟨spineE_ops e q hq, hwf2 q hq,
        (ih (sizeOf q.2) (by have := spineE_mem_size e q hq; omega)).2.1 _ (le_refl _)⟩
    have hlen : (printE e).length =
        (printT (spineE e).1).length + (printPsE (spineE e).2).length := by
      rw [hsp]
      simp
    have htlen : 1 ≤ (printT (spineE e).1).length := printT_len _ hwf1
    rw [hsp, List.append_assoc] at hsync
    rw [hlen] at hfuel
    cases fuel with
    | zero => omega
    | succ m =>
      have hnb2 : NB (printPsE (spineE e).2 ++ rest) := NB_printPsE hpairs hnb
      have hnm2 : (tokenizeStep (printPsE (spineE e).2 ++ rest)).1.type ≠ TokenType.MULT := by
        cases hps : (spineE e).2 with
        | nil => simpa [printPsE] using hnm
        | cons r rs =>
          have hop' := spineE_ops e r (by rw [hps]; simp)
          rw [show printPsE (r :: rs) ++ rest = r.1.value.toList ++
              (printT r.2 ++ printPsE rs ++ rest) by rw [printPsE_cons]; simp,
            tokenizeStep_opTok (by
              rcases hop' with h | h
              · exact Or.inl h
              · exact Or.inr (Or.inl h))]
          rcases hop' with h | h <;> rw [h] <;> decide
      have hnd2 : (tokenizeStep (printPsE (spineE e).2 ++ rest)).1.type ≠ TokenType.DIV := by
        cases hps : (spineE e).2 with
        | nil => simpa [printPsE] using hnd
        | cons r rs =>
          have hop' := spineE_ops e r (by rw [hps]; simp)
          rw [show printPsE (r :: rs) ++ rest = r.1.value.toList ++
              (printT r.2 ++ printPsE rs ++ rest) by rw [printPsE_cons]; simp,
            tokenizeStep_opTok (by
              rcases hop' with h | h
              · exact Or.inl h
              · exact Or.inr (Or.inl h))]
          rcases hop' with h | h <;> rw [h] <;> decide
      obtain ⟨p1, hterm, hsync1⟩ :=
        htOK hwf1 p (printPsE (spineE e).2 ++ rest) hsync hnb2 hnm2 hnd2 m (by omega)
      obtain ⟨p', hloop, hsync'⟩ :=
        parseExprLoop_sim (spineE e).2 (treeT (spineE e).1) p1 rest hpairs hsync1 hnb
          hnp hnmi hnm hnd m (by omega)
      refine ⟨p', ?_, hsync'⟩
      simp only [parseExpr]
      rw [hterm]
      show parseExprLoop m (treeT (spineE e).1) p1 = Except.ok (treeE e, p')
      rw [htr]
      exact hloop
termination_by n

theorem takeWhile_all {p : Char → Bool} : ∀ {l : List Char}, (∀ c ∈ l, p c = true) →
    l.takeWhile p = l
  | [], _ => rfl
  | c :: cs, h => by
    rw [List.takeWhile_cons, h c (by simp)]
    simp only [if_true, List.cons.injEq, true_and]
    exact takeWhile_all (fun d hd => h d (by simp [hd]))

theorem parseNumber_digits {ds : List Char} (hdig : ∀ c ∈ ds, isDigitGo c = true) :
    parseNumber (String.mk ds) = (digitsToNat ds : ℚ) := by
  rw [parseNumber, show (String.mk ds).toList = ds from rfl, takeWhile_all hdig]

mutual

theorem eval_treeF : ∀ f : GFactor, gwfF f = true →
    Eval (treeF f) =
      (match denF f with | some v => Except.ok v | none => Except.error "division by zero")
  | .num ds => by
    intro h
    simp only [gwfF, Bool.and_eq_true, Bool.not_eq_true', List.all_eq_true] at h
    show Except.ok (parseNumber (String.mk ds)) = _
    rw [parseNumber_digits h.2]
    rfl
  | .paren e => fun h => eval_treeE e h

theorem eval_treeT : ∀ t : GTerm, gwfT t = true →
    Eval (treeT t) =
      (match denT t with | some v => Except.ok v | none => Except.error "division by zero")
  | .factor f => fun h => eval_treeF f h
  | .mul t f => by
    intro h
    simp only [gwfT, Bool.and_eq_true] at h
    have iht := eval_treeT t h.1
    have ihf := eval_treeF f h.2
    cases hdt : denT t with
    | none =>
      rw [hdt] at iht
      simp [Eval, treeT, denT, hdt, iht]
    | some a =>
      rw [hdt] at iht
      cases hdf : denF f with
      | none =>
        rw [hdf] at ihf
        simp [Eval, treeT, denT, hdt, hdf, iht, ihf]
      | some b =>
        rw [hdf] at ihf
        simp [Eval, treeT, denT, hdt, hdf, iht, ihf]
  | .div t f => by
    intro h
    simp only [gwfT, Bool.and_eq_true] at h
    have iht := eval_treeT t h.1
    have ihf := eval_treeF f h.2
    cases hdt : denT t with
    | none =>
      rw [hdt] at iht
      simp [Eval, treeT, denT, hdt, iht]
    | some a =>
      rw [hdt] at iht
      cases hdf : denF f with
      | none =>
        rw [hdf] at ihf
        simp [Eval, treeT, denT, hdt, hdf, iht, ihf]
      | some b =>
        rw [hdf] at ihf
        by_cases hb : b = 0
        · simp [Eval, treeT, denT, hdt, hdf, iht, ihf, hb]
        · simp [Eval, treeT, denT, hdt, hdf, iht, ihf, hb]

theorem eval_treeE : ∀ e : GExpr, gwfE e = true →
    Eval (treeE e) =
      (match denE e with | some v => Except.ok v | none => Except.error "division by zero")
  | .term t => fun h => eval_treeT t h
  | .add e t => by
    intro h
    simp only [gwfE, Bool.and_eq_true] at h
    have ihe := eval_treeE e h.1
    have iht := eval_treeT t h.2
    cases hde : denE e with
    | none =>
      rw [hde] at ihe
      simp [Eval, treeE, denE, hde, ihe]
    | some a =>
      rw [hde] at ihe
      cases hdt : denT t with
      | none =>
        rw [hdt] at iht
        simp [Eval, treeE, denE, hde, hdt, ihe, iht]
      | some b =>
        rw [hdt] at iht
        simp [Eval, treeE, denE, hde, hdt, ihe, iht]
  | .sub e t => by
    intro h
    simp only [gwfE, Bool.and_eq_true] at h
    have ihe := eval_treeE e h.1
    have iht := eval_treeT t h.2
    cases hde : denE e with
    | none =>
      rw [hde] at ihe
      simp [Eval, treeE, denE, hde, ihe]
    | some a =>
      rw [hde] at ihe
      cases hdt : denT t with
      | none =>
        rw [hdt] at iht
        simp [Eval, treeE, denE, hde, hdt, ihe, iht]
      | some b =>
        rw [hdt] at iht
        simp [Eval, treeE, denE, hde, hdt, ihe, iht]

end

/-! The freshly constructed parser is synchronized with the whole input. -/

theorem Sync_init (s : List Char) : Sync (NewParser (NewLexer s)) s := by
  obtain ⟨h1, h2, _h3, h4, _h5⟩ := NextToken_sim (wfl_NewLexer s)
  rw [laSuffix_NewLexer] at h1 h4
  exact ⟨h2, h1, h4⟩

theorem input_NewParser (s : List Char) : (NewParser (NewLexer s)).lexer.input = s := by
  obtain ⟨_, _, h3, _, _⟩ := NextToken_sim (wfl_NewLexer s)
  rw [show (NewParser (NewLexer s)).lexer = (NextToken (NewLexer s)).2 from rfl, h3]
  rfl

/-- Parsing a grammar-generated string followed by arbitrary trailing text
whose first token cannot continue the expression yields exactly the
derivation's tree, with the trailing text unconsumed. -/
theorem ParseString_print (g : GExpr) (junk : List Char) (hwf : gwfE g = true)
    (hnb : NB junk)
    (h1 : (tokenizeStep junk).1.type ≠ TokenType.PLUS)
    (h2 : (tokenizeStep junk).1.type ≠ TokenType.MINUS)
    (h3 : (tokenizeStep junk).1.type ≠ TokenType.MULT)
    (h4 : (tokenizeStep junk).1.type ≠ TokenType.DIV) :
    ∃ p', ParseString (printE g ++ junk) = .ok (treeE g, p') ∧ Sync p' junk := by
  have hOK : ExprOK g := (parse_print_all (sizeOf g)).2.2 g (le_refl _)
  have hsync := Sync_init (printE g ++ junk)
  have hfuel : 3 * (printE g).length + 2 ≤
      3 * (NewParser (NewLexer (printE g ++ junk))).lexer.input.length + 8 := by
    rw [input_NewParser]
    simp
    omega
  obtain ⟨p', hp, hs⟩ := hOK hwf _ junk hsync hnb h1 h2 h3 h4 _ hfuel
  exact ⟨p', hp, hs⟩

/-- Parsing exactly a grammar-generated string yields the derivation's tree. -/
theorem ParseString_print_nil (g : GExpr) (hwf : gwfE g = true) :
    ∃ p', ParseString (printE g) = .ok (treeE g, p') := by
  obtain ⟨p', hp, _⟩ := ParseString_print g [] hwf (Or.inl rfl)
    (by decide) (by decide) (by decide) (by decide)
  exact ⟨p', by rw [← List.append_nil (printE g)]; exact hp⟩

set_option maxHeartbeats 1600000 in
/-- Parse-then-eval computes the denotation of any well-formed derivation
whose value is defined. -/
theorem runString_print (g : GExpr) (v : ℚ) (hwf : gwfE g = true)
    (hden : denE g = some v) : runString (printE g) = .ok v := by
  obtain ⟨p', hp⟩ := ParseString_print_nil g hwf
  rw [runString, hp]
  show Eval (treeE g) = Except.ok v
  rw [eval_treeE g hwf, hden]

theorem eval_divZero_iff : ∀ e : Expr,
    (Eval e = .error "division by zero") ↔ divZeroReach e := by
  intro e
  induction e with
  | Number v => simp [Eval, divZeroReach]
  | BinaryOp l op r ihl ihr =>
    cases hel : Eval l with
    | error m =>
      simp only [Eval, hel, divZeroReach]
      rw [← ihl, ← ihr, hel]
      simp
    | ok a =>
      cases her : Eval r with
      | error m =>
        simp only [Eval, hel, her, divZeroReach]
        rw [← ihl, ← ihr, hel, her]
        simp
      | ok b =>
        simp only [Eval, hel, her, divZeroReach]
        rw [← ihl, ← ihr, hel, her]
        cases hop : op.type with
        | EOF => simp
        | NUMBER => simp
        | PLUS => simp
        | MINUS => simp
        | MULT => simp
        | DIV =>
          by_cases hb : b = 0
          · subst hb
            simp
          · simp [hb]
        | LPAREN => simp
        | RPAREN => simp
        | INVALID => simp

/-! The scan cursor never moves backwards, on every lexer state. -/

theorem skipWhitespaceAux_pos : ∀ (n : Nat) (l : Lexer), l.pos ≤ (skipWhitespaceAux n l).pos
  | 0, _ => le_refl _
  | n + 1, l => by
    cases hsp : isSpaceGo l.ch with
    | false =>
      rw [skipWhitespaceAux, hsp]
      simp
    | true =>
      rw [skipWhitespaceAux, hsp]
      simp only [if_true]
      have h := skipWhitespaceAux_pos n (readChar l)
      rw [readChar_pos] at h
      omega

theorem readDigitsAux_pos : ∀ (n : Nat) (l : Lexer), l.pos ≤ (readDigitsAux n l).pos
  | 0, _ => le_refl _
  | n + 1, l => by
    cases hsp : isDigitGo l.ch with
    | false =>
      rw [readDigitsAux, hsp]
      simp
    | true =>
      rw [readDigitsAux, hsp]
      simp only [if_true]
      have h := readDigitsAux_pos n (readChar l)
      rw [readChar_pos] at h
      omega

theorem NextToken_pos (l : Lexer) : l.pos ≤ (NextToken l).2.pos := by
  have h1 : l.pos ≤ (skipWhitespace l).pos := skipWhitespaceAux_pos _ l
  simp only [NextToken]
  by_cases hch : (skipWhitespace l).ch = Char.ofNat 0
  · rw [if_pos hch]
    exact h1
  · rw [if_neg hch]
    cases hdig : isDigitGo (skipWhitespace l).ch with
    | true =>
      simp only [if_true]
      have h2 : (skipWhitespace l).pos ≤ (readDigits (skipWhitespace l)).pos :=
        readDigitsAux_pos _ (skipWhitespace l)
      show l.pos ≤ (readDigits (skipWhitespace l)).pos
      omega
    | false =>
      simp only [Bool.false_eq_true, if_false]
      show l.pos ≤ (skipWhitespace l).pos + 1
      omega

theorem lexIter_pos_mono (n : Nat) : ∀ l : Lexer, (lexIter n l).pos ≤ (lexIter (n + 1) l).pos := by
  induction n with
  | zero => exact fun l => NextToken_pos l
  | succ n ih => exact fun l => ih (NextToken l).2

/-! Lockstep lemmas for whitespace-insensitive parsing. -/

theorem length_dropWhile_le (p : Char → Bool) : ∀ l : List Char,
    (l.dropWhile p).length ≤ l.length
  | [] => le_refl _
  | c :: cs => by
    rw [List.dropWhile_cons]
    cases hp : p c
    · simp
    · simp only [if_true]
      have := length_dropWhile_le p cs
      simp only [List.length_cons]
      omega

theorem tokenizeStep_len (cs : List Char) :
    (tokenizeStep cs).2.length ≤ cs.length ∧
    ((tokenizeStep cs).1.type ≠ TokenType.EOF →
      (tokenizeStep cs).2.length < cs.length) := by
  have hdw : (cs.dropWhile isSpaceGo).length ≤ cs.length := length_dropWhile_le _ cs
  cases hd : cs.dropWhile isSpaceGo with
  | nil =>
    simp only [tokenizeStep, hd]
    exact ⟨by simp, fun h => absurd rfl h⟩
  | cons c rest =>
    rw [hd] at hdw
    simp only [List.length_cons] at hdw
    by_cases hc0 : c = Char.ofNat 0
    · simp only [tokenizeStep, hd, if_pos hc0]
      rw [hc0]
      exact ⟨by simp; omega, fun h => absurd rfl h⟩
    · cases hdig : isDigitGo c with
      | true =>
        simp only [tokenizeStep, hd, if_neg hc0, hdig, if_true]
        constructor
        · have h1 : ((c :: rest).dropWhile isDigitGo).length ≤ rest.length := by
            rw [List.dropWhile_cons, hdig]
            simp only [if_true]
            exact length_dropWhile_le _ rest
          omega
        · intro _
          have h1 : ((c :: rest).dropWhile isDigitGo).length ≤ rest.length := by
            rw [List.dropWhile_cons, hdig]
            simp only [if_true]
            exact length_dropWhile_le _ rest
          omega
      | false =>
        simp only [tokenizeStep, hd, if_neg hc0, hdig, Bool.false_eq_true, if_false]
        exact ⟨by omega, fun _ => by omega⟩

theorem PRel_advance {p q : Parser} (h : PRel p q) :
    PRel (advanceTok p) (advanceTok q) ∧
    (advanceTok p).curr = (tokenizeStep (laSuffix p.lexer)).1 ∧
    (laSuffix (advanceTok p).lexer).length ≤ (laSuffix p.lexer).length ∧
    (laSuffix (advanceTok q).lexer).length ≤ (laSuffix q.lexer).length ∧
    ((tokenizeStep (laSuffix p.lexer)).1.type ≠ TokenType.EOF →
      (laSuffix (advanceTok p).lexer).length < (laSuffix p.lexer).length ∧
      (laSuffix (advanceTok q).lexer).length < (laSuffix q.lexer).length) := by
  obtain ⟨hwp, hwq, hcur, hstream⟩ := h
  obtain ⟨hp1, hp2, _hp3, hp4, _⟩ := NextToken_sim hwp
  obtain ⟨hq1, hq2, _hq3, hq4, _⟩ := NextToken_sim hwq
  have hcp : (advanceTok p).curr = (tokenizeStep (laSuffix p.lexer)).1 := hp1
  have hcq : (advanceTok q).curr = (tokenizeStep (laSuffix q.lexer)).1 := hq1
  have hsp : laSuffix (advanceTok p).lexer = (tokenizeStep (laSuffix p.lexer)).2 := hp4
  have hsq : laSuffix (advanceTok q).lexer = (tokenizeStep (laSuffix q.lexer)).2 := hq4
  have htok0 : (tokenizeStep (laSuffix p.lexer)).1 = (tokenizeStep (laSuffix q.lexer)).1 :=
    hstream 0
  have hlemp := tokenizeStep_len (laSuffix p.lexer)
  have hlemq := tokenizeStep_len (laSuffix q.lexer)
  refine ⟨⟨hp2, hq2, ?_, ?_⟩, hcp, ?_, ?_, ?_⟩
  · rw [hcp, hcq, htok0]
  · intro n
    rw [hsp, hsq]
    exact hstream (n + 1)
  · rw [hsp]
    exact hlemp.1
  · rw [hsq]
    exact hlemq.1
  · intro hne
    refine ⟨by rw [hsp]; exact hlemp.2 hne, by rw [hsq]; exact hlemq.2 (by rw [← htok0]; exact hne)⟩

theorem parseFactor_badGe (p : Parser) (h1 : p.curr.type ≠ TokenType.NUMBER)
    (h2 : p.curr.type ≠ TokenType.LPAREN) {fuel : Nat} (hf : 1 ≤ fuel) :
    parseFactor fuel p = .error (factorErrMsg p.curr.type) := by
  obtain ⟨k, rfl⟩ : ∃ k, fuel = k + 1 := ⟨fuel - 1, by omega⟩
  exact parseFactor_bad h1 h2 k

theorem parseTerm_badGe (p : Parser) (h1 : p.curr.type ≠ TokenType.NUMBER)
    (h2 : p.curr.type ≠ TokenType.LPAREN) {fuel : Nat} (hf : 2 ≤ fuel) :
    parseTerm fuel p = .error (factorErrMsg p.curr.type) := by
  obtain ⟨k, rfl⟩ : ∃ k, fuel = k + 2 := ⟨fuel - 2, by omega⟩
  exact parseTerm_bad h1 h2 k

theorem parseExpr_badGe (p : Parser) (h1 : p.curr.type ≠ TokenType.NUMBER)
    (h2 : p.curr.type ≠ TokenType.LPAREN) {fuel : Nat} (hf : 3 ≤ fuel) :
    parseExpr fuel p = .error (factorErrMsg p.curr.type) := by
  obtain ⟨k, rfl⟩ : ∃ k, fuel = k + 3 := ⟨fuel - 3, by omega⟩
  exact parseExpr_bad h1 h2 k

theorem parse_parallel (N : Nat) :
    (∀ p q f1 f2, PRel p q →
      5 * (laSuffix p.lexer).length + 2 ≤ N →
      3 * (laSuffix p.lexer).length + 5 ≤ f1 →
      3 * (laSuffix q.lexer).length + 5 ≤ f2 →
      POut (parseFactor f1 p) (parseFactor f2 q)
        (laSuffix p.lexer).length (laSuffix q.lexer).length) ∧
    (∀ acc p q f1 f2, PRel p q →
      5 * (laSuffix p.lexer).length + 1 ≤ N →
      3 * (laSuffix p.lexer).length + 5 ≤ f1 →
      3 * (laSuffix q.lexer).length + 5 ≤ f2 →
      POut (parseTermLoop f1 acc p) (parseTermLoop f2 acc q)
        (laSuffix p.lexer).length (laSuffix q.lexer).length) ∧
    (∀ p q f1 f2, PRel p q →
      5 * (laSuffix p.lexer).length + 3 ≤ N →
      3 * (laSuffix p.lexer).length + 6 ≤ f1 →
      3 * (laSuffix q.lexer).length + 6 ≤ f2 →
      POut (parseTerm f1 p) (parseTerm f2 q)
        (laSuffix p.lexer).length (laSuffix q.lexer).length) ∧
    (∀ acc p q f1 f2, PRel p q →
      5 * (laSuffix p.lexer).length + 3 ≤ N →
      3 * (laSuffix p.lexer).length + 6 ≤ f1 →
      3 * (laSuffix q.lexer).length + 6 ≤ f2 →
      POut (parseExprLoop f1 acc p) (parseExprLoop f2 acc q)
        (laSuffix p.lexer).length (laSuffix q.lexer).length) ∧
    (∀ p q f1 f2, PRel p q →
      5 * (laSuffix p.lexer).length + 4 ≤ N →
      3 * (laSuffix p.lexer).length + 7 ≤ f1 →
      3 * (laSuffix q.lexer).length + 7 ≤ f2 →
      POut (parseExpr f1 p) (parseExpr f2 q)
        (laSuffix p.lexer).length (laSuffix q.lexer).length) := by
  have ih : ∀ M, M < N →
      (∀ p q f1 f2, PRel p q →
        5 * (laSuffix p.lexer).length + 2 ≤ M →
        3 * (laSuffix p.lexer).length + 5 ≤ f1 →
        3 * (laSuffix q.lexer).length + 5 ≤ f2 →
        POut (parseFactor f1 p) (parseFactor f2 q)
          (laSuffix p.lexer).length (laSuffix q.lexer).length) ∧
      (∀ acc p q f1 f2, PRel p q →
        5 * (laSuffix p.lexer).length + 1 ≤ M →
        3 * (laSuffix p.lexer).length + 5 ≤ f1 →
        3 * (laSuffix q.lexer).length + 5 ≤ f2 →
        POut (parseTermLoop f1 acc p) (parseTermLoop f2 acc q)
          (laSuffix p.lexer).length (laSuffix q.lexer).length) ∧
      (∀ p q f1 f2, PRel p q →
        5 * (laSuffix p.lexer).length + 3 ≤ M →
        3 * (laSuffix p.lexer).length + 6 ≤ f1 →
        3 * (laSuffix q.lexer).length + 6 ≤ f2 →
        POut (parseTerm f1 p) (parseTerm f2 q)
          (laSuffix p.lexer).length (laSuffix q.lexer).length) ∧
      (∀ acc p q f1 f2, PRel p q →
        5 * (laSuffix p.lexer).length + 3 ≤ M →
        3 * (laSuffix p.lexer).length + 6 ≤ f1 →
        3 * (laSuffix q.lexer).length + 6 ≤ f2 →
        POut (parseExprLoop f1 acc p) (parseExprLoop f2 acc q)
          (laSuffix p.lexer).length (laSuffix q.lexer).length) ∧
      (∀ p q f1 f2, PRel p q →
        5 * (laSuffix p.lexer).length + 4 ≤ M →
        3 * (laSuffix p.lexer).length + 7 ≤ f1 →
        3 * (laSuffix q.lexer).length + 7 ≤ f2 →
        POut (parseExpr f1 p) (parseExpr f2 q)
          (laSuffix p.lexer).length (laSuffix q.lexer).length) :=
    fun M _ => parse_parallel M
  refine ⟨?_, ?_, ?_, ?_, ?_⟩
  · -- parseFactor
    intro p q f1 f2 hrel hgate hf1 hf2
    obtain ⟨hwp, hwq, hcur, hstream⟩ := hrel
    obtain ⟨k1, rfl⟩ : ∃ k, f1 = k + 1 := ⟨f1 - 1, by omega⟩
    obtain ⟨k2, rfl⟩ : ∃ k, f2 = k + 1 := ⟨f2 - 1, by omega⟩
    by_cases hnum : p.curr.type = TokenType.NUMBER
    · have hnumq : q.curr.type = TokenType.NUMBER := by rw [← hcur]; exact hnum
      obtain ⟨hrel2, _, hbp, hbq, _⟩ := PRel_advance ⟨hwp, hwq, hcur, hstream⟩
      right
      refine ⟨.Number (parseNumber p.curr.value), advanceTok p, advanceTok q, ?_, ?_,
        hrel2, hbp, hbq⟩
      · simp only [parseFactor]
        rw [if_pos hnum]
      · simp only [parseFactor]
        rw [if_pos hnumq, ← hcur]
    · by_cases hlp : p.curr.type = TokenType.LPAREN
      · have hlpq : q.curr.type = TokenType.LPAREN := by rw [← hcur]; exact hlp
        obtain ⟨hrel2, hcp2, hbp2, hbq2, hstrict⟩ := PRel_advance ⟨hwp, hwq, hcur, hstream⟩
        by_cases heof : (tokenizeStep (laSuffix p.lexer)).1.type = TokenType.EOF
        · have hpc2 : (advanceTok p).curr.type = TokenType.EOF := by rw [hcp2]; exact heof
          have hqc2 : (advanceTok q).curr.type = TokenType.EOF := by
            obtain ⟨_, _, hc2, _⟩ := hrel2
            rw [← hc2]
            exact hpc2
          have herr1 : parseExpr k1 (advanceTok p) = .error (factorErrMsg TokenType.EOF) := by
            have h := parseExpr_badGe (advanceTok p) (by rw [hpc2]; decide)
              (by rw [hpc2]; decide) (show 3 ≤ k1 by omega)
            rw [hpc2] at h
            exact h
          have herr2 : parseExpr k2 (advanceTok q) = .error (factorErrMsg TokenType.EOF) := by
            have h := parseExpr_badGe (advanceTok q) (by rw [hqc2]; decide)
              (by rw [hqc2]; decide) (show 3 ≤ k2 by omega)
            rw [hqc2] at h
            exact h
          left
          refine ⟨factorErrMsg TokenType.EOF, ?_, ?_⟩
          · simp only [parseFactor]
            rw [if_neg hnum, if_pos hlp, herr1]
          · simp only [parseFactor]
            rw [if_neg (by rw [← hcur]; exact hnum), if_pos hlpq, herr2]
        · obtain ⟨hsp2, hsq2⟩ := hstrict heof
          have hE := (ih (5 * (laSuffix (advanceTok p).lexer).length + 4) (by omega)).2.2.2.2
            (advanceTok p) (advanceTok q) k1 k2 hrel2 (le_refl _) (by omega) (by omega)
          rcases hE with ⟨msg, hm1, hm2⟩ | ⟨e, p3, q3, ho1, ho2, hrel3, hb3p, hb3q⟩
          · left
            refine ⟨msg, ?_, ?_⟩
            · simp only [parseFactor]
              rw [if_neg hnum, if_pos hlp, hm1]
            · simp only [parseFactor]
              rw [if_neg (by rw [← hcur]; exact hnum), if_pos hlpq, hm2]
          · obtain ⟨hw3p, hw3q, hc3, hs3⟩ := hrel3
            by_cases hrp : p3.curr.type = TokenType.RPAREN
            · have hrpq : q3.curr.type = TokenType.RPAREN := by rw [← hc3]; exact hrp
              obtain ⟨hrel4, _, hb4p, hb4q, _⟩ := PRel_advance ⟨hw3p, hw3q, hc3, hs3⟩
              right
              refine ⟨e, advanceTok p3, advanceTok q3, ?_, ?_, hrel4, by omega, by omega⟩
              · simp only [parseFactor]
                rw [if_neg hnum, if_pos hlp, ho1]
                show (if p3.curr.type = TokenType.RPAREN then
                    Except.ok (e, advanceTok p3)
                  else Except.error "expected closing parenthesis") = _
                rw [if_pos hrp]
              · simp only [parseFactor]
                rw [if_neg (by rw [← hcur]; exact hnum), if_pos hlpq, ho2]
                show (if q3.curr.type = TokenType.RPAREN then
                    Except.ok (e, advanceTok q3)
                  else Except.error "expected closing parenthesis") = _
                rw [if_pos hrpq]
            · have hrpq : ¬q3.curr.type = TokenType.RPAREN := by rw [← hc3]; exact hrp
              left
              refine ⟨"expected closing parenthesis", ?_, ?_⟩
              · simp only [parseFactor]
                rw [if_neg hnum, if_pos hlp, ho1]
                show (if p3.curr.type = TokenType.RPAREN then
                    Except.ok (e, advanceTok p3)
                  else Except.error "expected closing parenthesis") = _
                rw [if_neg hrp]
              · simp only [parseFactor]
                rw [if_neg (by rw [← hcur]; exact hnum), if_pos hlpq, ho2]
                show (if q3.curr.type = TokenType.RPAREN then
                    Except.ok (e, advanceTok q3)
                  else Except.error "expected closing parenthesis") = _
                rw [if_neg hrpq]
      · left
        refine ⟨factorErrMsg p.curr.type, ?_, ?_⟩
        · exact parseFactor_badGe p hnum hlp (by omega)
        · have h := parseFactor_badGe q (by rw [← hcur]; exact hnum)
            (by rw [← hcur]; exact hlp) (show 1 ≤ k2 + 1 by omega)
          rw [← hcur] at h
          exact h
  · -- parseTermLoop
    intro acc p q f1 f2 hrel hgate hf1 hf2
    obtain ⟨hwp, hwq, hcur, hstream⟩ := hrel
    obtain ⟨k1, rfl⟩ : ∃ k, f1 = k + 1 := ⟨f1 - 1, by omega⟩
    obtain ⟨k2, rfl⟩ : ∃ k, f2 = k + 1 := ⟨f2 - 1, by omega⟩
    by_cases hcond : p.curr.type = TokenType.MULT ∨ p.curr.type = TokenType.DIV
    · have hcondq : q.curr.type = TokenType.MULT ∨ q.curr.type = TokenType.DIV := by
        rw [← hcur]
        exact hcond
      obtain ⟨hrel2, hcp2, hbp2, hbq2, hstrict⟩ := PRel_advance ⟨hwp, hwq, hcur, hstream⟩
      by_cases heof : (tokenizeStep (laSuffix p.lexer)).1.type = TokenType.EOF
      · have hpc2 : (advanceTok p).curr.type = TokenType.EOF := by rw [hcp2]; exact heof
        have hqc2 : (advanceTok q).curr.type = TokenType.EOF := by
          obtain ⟨_, _, hc2, _⟩ := hrel2
          rw [← hc2]
          exact hpc2
        have herr1 : parseFactor k1 (advanceTok p) = .error (factorErrMsg TokenType.EOF) := by
          have h := parseFactor_badGe (advanceTok p) (by rw [hpc2]; decide)
            (by rw [hpc2]; decide) (show 1 ≤ k1 by omega)
          rw [hpc2] at h
          exact h
        have herr2 : parseFactor k2 (advanceTok q) = .error (factorErrMsg TokenType.EOF) := by
          have h := parseFactor_badGe (advanceTok q) (by rw [hqc2]; decide)
            (by rw [hqc2]; decide) (show 1 ≤ k2 by omega)
          rw [hqc2] at h
          exact h
        left
        refine ⟨factorErrMsg TokenType.EOF, ?_, ?_⟩
        · simp only [parseTermLoop]
          rw [if_pos hcond, herr1]
        · simp only [parseTermLoop]
          rw [if_pos hcondq, herr2]
      · obtain ⟨hsp2, hsq2⟩ := hstrict heof
        have hF := (ih (5 * (laSuffix (advanceTok p).lexer).length + 2) (by omega)).1
          (advanceTok p) (advanceTok q) k1 k2 hrel2 (le_refl _) (by omega) (by omega)
        rcases hF with ⟨msg, hm1, hm2⟩ | ⟨e2, p3, q3, ho1, ho2, hrel3, hb3p, hb3q⟩
        · left
          refine ⟨msg, ?_, ?_⟩
          · simp only [parseTermLoop]
            rw [if_pos hcond, hm1]
          · simp only [parseTermLoop]
            rw [if_pos hcondq, hm2]
        · have hL := (ih (5 * (laSuffix p3.lexer).length + 1) (by omega)).2.1
            (Expr.BinaryOp acc p.curr e2) p3 q3 k1 k2 hrel3 (le_refl _) (by omega) (by omega)
          rcases hL with ⟨msg, hl1, hl2⟩ | ⟨e3, p4, q4, hk1, hk2, hrel4, hb4p, hb4q⟩
          · left
            refine ⟨msg, ?_, ?_⟩
            · simp only [parseTermLoop]
              rw [if_pos hcond, ho1]
              show parseTermLoop k1 (Expr.BinaryOp acc p.curr e2) p3 = _
              exact hl1
            · simp only [parseTermLoop]
              rw [if_pos hcondq, ho2]
              show parseTermLoop k2 (Expr.BinaryOp acc q.curr e2) q3 = _
              rw [← hcur]
              exact hl2
          · right
            refine ⟨e3, p4, q4, ?_, ?_, hrel4, by omega, by omega⟩
            · simp only [parseTermLoop]
              rw [if_pos hcond, ho1]
              show parseTermLoop k1 (Expr.BinaryOp acc p.curr e2) p3 = _
              exact hk1
            · simp only [parseTermLoop]
              rw [if_pos hcondq, ho2]
              show parseTermLoop k2 (Expr.BinaryOp acc q.curr e2) q3 = _
              rw [← hcur]
              exact hk2
    · have hcondq : ¬(q.curr.type = TokenType.MULT ∨ q.curr.type = TokenType.DIV) := by
        rw [← hcur]
        exact hcond
      right
      refine ⟨acc, p, q, ?_, ?_, ⟨hwp, hwq, hcur, hstream⟩, le_refl _, le_refl _⟩
      · simp only [parseTermLoop]
        rw [if_neg hcond]
      · simp only [parseTermLoop]
        rw [if_neg hcondq]
  · -- parseTerm
    intro p q f1 f2 hrel hgate hf1 hf2
    obtain ⟨k1, rfl⟩ : ∃ k, f1 = k + 1 := ⟨f1 - 1, by omega⟩
    obtain ⟨k2, rfl⟩ : ∃ k, f2 = k + 1 := ⟨f2 - 1, by omega⟩
    have hF := (ih (5 * (laSuffix p.lexer).length + 2) (by omega)).1
      p q k1 k2 hrel (le_refl _) (by omega) (by omega)
    rcases hF with ⟨msg, hm1, hm2⟩ | ⟨e1, p1, q1, ho1, ho2, hrel1, hb1p, hb1q⟩
    · left
      refine ⟨msg, ?_, ?_⟩
      · simp only [parseTerm]
        rw [hm1]
      · simp only [parseTerm]
        rw [hm2]
    · have hL := (ih (5 * (laSuffix p1.lexer).length + 1) (by omega)).2.1
        e1 p1 q1 k1 k2 hrel1 (le_refl _) (by omega) (by omega)
      rcases hL with ⟨msg, hl1, hl2⟩ | ⟨e2, p2, q2, hk1, hk2, hrel2, hb2p, hb2q⟩
      · left
        refine ⟨msg, ?_, ?_⟩
        · simp only [parseTerm]
          rw [ho1]
          exact hl1
        · simp only [parseTerm]
          rw [ho2]
          exact hl2
      · right
        refine ⟨e2, p2, q2, ?_, ?_, hrel2, by omega, by omega⟩
        · simp only [parseTerm]
          rw [ho1]
          exact hk1
        · simp only [parseTerm]
          rw [ho2]
          exact hk2
  · -- parseExprLoop
    intro acc p q f1 f2 hrel hgate hf1 hf2
    obtain ⟨hwp, hwq, hcur, hstream⟩ := hrel
    obtain ⟨k1, rfl⟩ : ∃ k, f1 = k + 1 := ⟨f1 - 1, by omega⟩
    obtain ⟨k2, rfl⟩ : ∃ k, f2 = k + 1 := ⟨f2 - 1, by omega⟩
    by_cases hcond : p.curr.type = TokenType.PLUS ∨ p.curr.type = TokenType.MINUS
    · have hcondq : q.curr.type = TokenType.PLUS ∨ q.curr.type = TokenType.MINUS := by
        rw [← hcur]
        exact hcond
      obtain ⟨hrel2, hcp2, hbp2, hbq2, hstrict⟩ := PRel_advance ⟨hwp, hwq, hcur, hstream⟩
      by_cases heof : (tokenizeStep (laSuffix p.lexer)).1.type = TokenType.EOF
      · have hpc2 : (advanceTok p).curr.type = TokenType.EOF := by rw [hcp2]; exact heof
        have hqc2 : (advanceTok q).curr.type = TokenType.EOF := by
          obtain ⟨_, _, hc2, _⟩ := hrel2
          rw [← hc2]
          exact hpc2
        have herr1 : parseTerm k1 (advanceTok p) = .error (factorErrMsg TokenType.EOF) := by
          have h := parseTerm_badGe (advanceTok p) (by rw [hpc2]; decide)
            (by rw [hpc2]; decide) (show 2 ≤ k1 by omega)
          rw [hpc2] at h
          exact h
        have herr2 : parseTerm k2 (advanceTok q) = .error (factorErrMsg TokenType.EOF) := by
          have h := parseTerm_badGe (advanceTok q) (by rw [hqc2]; decide)
            (by rw [hqc2]; decide) (show 2 ≤ k2 by omega)
          rw [hqc2] at h
          exact h
        left
        refine ⟨factorErrMsg TokenType.EOF, ?_, ?_⟩
        · simp only [parseExprLoop]
          rw [if_pos hcond, herr1]
        · simp only [parseExprLoop]
          rw [if_pos hcondq, herr2]
      · obtain ⟨hsp2, hsq2⟩ := hstrict heof
        have hT := (ih (5 * (laSuffix (advanceTok p).lexer).length + 3) (by omega)).2.2.1
          (advanceTok p) (advanceTok q) k1 k2 hrel2 (le_refl _) (by omega) (by omega)
        rcases hT with ⟨msg, hm1, hm2⟩ | ⟨e2, p3, q3, ho1, ho2, hrel3, hb3p, hb3q⟩
        · left
          refine ⟨msg, ?_, ?_⟩
          · simp only [parseExprLoop]
            rw [if_pos hcond, hm1]
          · simp only [parseExprLoop]
            rw [if_pos hcondq, hm2]
        · have hL := (ih (5 * (laSuffix p3.lexer).length + 3) (by omega)).2.2.2.1
            (Expr.BinaryOp acc p.curr e2) p3 q3 k1 k2 hrel3 (le_refl _) (by omega) (by omega)
          rcases hL with ⟨msg, hl1, hl2⟩ | ⟨e3, p4, q4, hk1, hk2, hrel4, hb4p, hb4q⟩
          · left
            refine ⟨msg, ?_, ?_⟩
            · simp only [parseExprLoop]
              rw [if_pos hcond, ho1]
              show parseExprLoop k1 (Expr.BinaryOp acc p.curr e2) p3 = _
              exact hl1
            · simp only [parseExprLoop]
              rw [if_pos hcondq, ho2]
              show parseExprLoop k2 (Expr.BinaryOp acc q.curr e2) q3 = _
              rw [← hcur]
              exact hl2
          · right
            refine ⟨e3, p4, q4, ?_, ?_, hrel4, by omega, by omega⟩
            · simp only [parseExprLoop]
              rw [if_pos hcond, ho1]
              show parseExprLoop k1 (Expr.BinaryOp acc p.curr e2) p3 = _
              exact hk1
            · simp only [parseExprLoop]
              rw [if_pos hcondq, ho2]
              show parseExprLoop k2 (Expr.BinaryOp acc q.curr e2) q3 = _
              rw [← hcur]
              exact hk2
    · have hcondq : ¬(q.curr.type = TokenType.PLUS ∨ q.curr.type = TokenType.MINUS) := by
        rw [← hcur]
        exact hcond
      right
      refine ⟨acc, p, q, ?_, ?_, ⟨hwp, hwq, hcur, hstream⟩, le_refl _, le_refl _⟩
      · simp only [parseExprLoop]
        rw [if_neg hcond]
      · simp only [parseExprLoop]
        rw [if_neg hcondq]
  · -- parseExpr
    intro p q f1 f2 hrel hgate hf1 hf2
    obtain ⟨k1, rfl⟩ : ∃ k, f1 = k + 1 := ⟨f1 - 1, by omega⟩
    obtain ⟨k2, rfl⟩ : ∃ k, f2 = k + 1 := ⟨f2 - 1, by omega⟩
    have hT := (ih (5 * (laSuffix p.lexer).length + 3) (by omega)).2.2.1
      p q k1 k2 hrel (le_refl _) (by omega) (by omega)
    rcases hT with ⟨msg, hm1, hm2⟩ | ⟨e1, p1, q1, ho1, ho2, hrel1, hb1p, hb1q⟩
    · left
      refine ⟨msg, ?_, ?_⟩
      · simp only [parseExpr]
        rw [hm1]
      · simp only [parseExpr]
        rw [hm2]
    · have hL := (ih (5 * (laSuffix p1.lexer).length + 3) (by omega)).2.2.2.1
        e1 p1 q1 k1 k2 hrel1 (le_refl _) (by omega) (by omega)
      rcases hL with ⟨msg, hl1, hl2⟩ | ⟨e2, p2, q2, hk1, hk2, hrel2, hb2p, hb2q⟩
      · left
        refine ⟨msg, ?_, ?_⟩
        · simp only [parseExpr]
          rw [ho1]
          exact hl1
        · simp only [parseExpr]
          rw [ho2]
          exact hl2
      · right
        refine ⟨e2, p2, q2, ?_, ?_, hrel2, by omega, by omega⟩
        · simp only [parseExpr]
          rw [ho1]
          exact hk1
        · simp only [parseExpr]
          rw [ho2]
          exact hk2
termination_by N

/-! Token streams of whitespace-separated piece lists. -/

theorem tokenizeStep_nil : tokenizeStep ([] : List Char) = (⟨TokenType.EOF, ""⟩, []) := rfl

theorem nthTok_nil : ∀ n, nthTok n ([] : List Char) = ⟨TokenType.EOF, ""⟩
  | 0 => rfl
  | n + 1 => by
    show nthTok n (tokenizeStep []).2 = _
    rw [tokenizeStep_nil]
    exact nthTok_nil n

theorem tokenizeStep_space {c : Char} {cs : List Char} (h : isSpaceGo c = true) :
    tokenizeStep (c :: cs) = tokenizeStep cs := by
  simp [tokenizeStep, List.dropWhile_cons, h]

theorem nthTok_space {c : Char} {cs : List Char} (h : isSpaceGo c = true) (n : Nat) :
    nthTok n (c :: cs) = nthTok n cs := by
  cases n with
  | zero =>
    show (tokenizeStep (c :: cs)).1 = (tokenizeStep cs).1
    rw [tokenizeStep_space h]
  | succ n =>
    show nthTok n (tokenizeStep (c :: cs)).2 = nthTok n (tokenizeStep cs).2
    rw [tokenizeStep_space h]

theorem tokenizeStep_piece {p cs : List Char} (hp : PieceTok p) (hnm : NoMerge p cs) :
    tokenizeStep (p ++ cs) = (pieceTok p, cs) := by
  rcases hp with ⟨hne, hdig⟩ | ⟨c, rfl, hns, hnd, hnz⟩
  · have hnb : NB cs := hnm hdig
    rw [tokenizeStep_digits hne hdig hnb]
    have hpt : pieceTok p = ⟨TokenType.NUMBER, String.mk p⟩ := by
      have h : tokenizeStep (p ++ []) = (⟨TokenType.NUMBER, String.mk p⟩, []) :=
        tokenizeStep_digits hne hdig (Or.inl rfl)
      rw [List.append_nil] at h
      rw [pieceTok, h]
    rw [hpt]
  · rw [show ([c] : List Char) ++ cs = c :: cs from rfl, tokenizeStep_op hns hnd hnz]
    have hpt : pieceTok [c] = opToken c := by
      rw [pieceTok, show ([c] : List Char) = c :: [] from rfl, tokenizeStep_op hns hnd hnz]
    rw [hpt]

theorem spacedTok_stream {ps : List (List Char)} {s : List Char} (h : SpacedTok ps s) :
    ∀ n, nthTok n s = psTok ps n := by
  induction h with
  | nil =>
    intro n
    rw [nthTok_nil]
    cases n <;> rfl
  | space hc _ ih =>
    intro n
    rw [nthTok_space hc]
    exact ih n
  | @piece pc psc sc hp hnm _ ih =>
    intro n
    have hstep := tokenizeStep_piece hp hnm
    cases n with
    | zero =>
      show (tokenizeStep (pc ++ sc)).1 = psTok (pc :: psc) 0
      rw [hstep]
      rfl
    | succ n =>
      show nthTok n (tokenizeStep (pc ++ sc)).2 = psTok (pc :: psc) (n + 1)
      rw [hstep]
      exact ih n

/-- The n-th token the Go lexer emits when called repeatedly equals the n-th
token of the reference stream of its unconsumed input. -/
theorem lexIter_tok : ∀ (n : Nat) (l : Lexer), WFL l →
    (NextToken (lexIter n l)).1 = nthTok n (laSuffix l)
  | 0, l, hw => (NextToken_sim hw).1
  | n + 1, l, hw => by
    obtain ⟨_, hw2, _, hs4, _⟩ := NextToken_sim hw
    show (NextToken (lexIter n (NextToken l).2)).1 = nthTok n (tokenizeStep (laSuffix l)).2
    rw [← hs4]
    exact lexIter_tok n (NextToken l).2 hw2

set_option maxHeartbeats 1600000 in
/-- Two inputs that are the same token texts with different interleaved
whitespace produce the same token sequence and the same parse-then-eval
outcome. -/
theorem spacedTok_run_eq {ps : List (List Char)} {s t : List Char}
    (hs : SpacedTok ps s) (ht : SpacedTok ps t) :
    (∀ n, (NextToken (lexIter n (NewLexer s))).1 = (NextToken (lexIter n (NewLexer t))).1) ∧
    runString s = runString t := by
  have hstreams : ∀ n, nthTok n s = nthTok n t := by
    intro n
    rw [spacedTok_stream hs n, spacedTok_stream ht n]
  constructor
  · intro n
    rw [lexIter_tok n (NewLexer s) (wfl_NewLexer s),
      lexIter_tok n (NewLexer t) (wfl_NewLexer t),
      laSuffix_NewLexer, laSuffix_NewLexer]
    exact hstreams n
  · have hrel : PRel (NewParser (NewLexer s)) (NewParser (NewLexer t)) := by
      obtain ⟨hw1, hc1, hs1⟩ := Sync_init s
      obtain ⟨hw2, hc2, hs2⟩ := Sync_init t
      refine ⟨hw1, hw2, ?_, ?_⟩
      · rw [hc1, hc2]
        exact hstreams 0
      · intro n
        rw [hs1, hs2]
        show nthTok n (tokenizeStep s).2 = nthTok n (tokenizeStep t).2
        exact hstreams (n + 1)
    have hbs : (laSuffix (NewParser (NewLexer s)).lexer).length ≤ s.length := by
      obtain ⟨_, _, hs1⟩ := Sync_init s
      rw [hs1]
      exact (tokenizeStep_len s).1
    have hbt : (laSuffix (NewParser (NewLexer t)).lexer).length ≤ t.length := by
      obtain ⟨_, _, hs1⟩ := Sync_init t
      rw [hs1]
      exact (tokenizeStep_len t).1
    have hE := (parse_parallel
        (5 * (laSuffix (NewParser (NewLexer s)).lexer).length + 4)).2.2.2.2
      (NewParser (NewLexer s)) (NewParser (NewLexer t))
      (3 * s.length + 8) (3 * t.length + 8) hrel (le_refl _) (by omega) (by omega)
    rw [runString, runString, ParseString, ParseString, Parse, Parse,
      input_NewParser, input_NewParser]
    rcases hE with ⟨msg, hm1, hm2⟩ | ⟨e, p', q', ho1, ho2, _, _, _⟩
    · rw [hm1, hm2]
    · rw [ho1, ho2]

/-! Remaining helper lemmas for the claim theorems. -/

theorem skipWhitespace_id {l : Lexer} (h : isSpaceGo l.ch = false) : skipWhitespace l = l := by
  show skipWhitespaceAux (l.input.length + 1 + 1) l = l
  rw [skipWhitespaceAux, h]
  simp

theorem NextToken_invalid {l : Lexer} (hw : WFL l)
    (hns : isSpaceGo l.ch = false) (hnd : isDigitGo l.ch = false)
    (hnz : l.ch ≠ Char.ofNat 0)
    (hmem : l.ch ∉ (['+', '-', '*', '/', '(', ')'] : List Char)) :
    NextToken l =
      (⟨TokenType.INVALID, "Invalid character: " ++ String.mk [l.ch]⟩, readChar l) ∧
    (NextToken l).2.pos = l.pos + 1 ∧ WFL (NextToken l).2 := by
  simp only [List.mem_cons, List.not_mem_nil, not_or, or_false] at hmem
  obtain ⟨m1, m2, m3, m4, m5, m6⟩ := hmem
  have hid : skipWhitespace l = l := skipWhitespace_id hns
  have heq : NextToken l =
      (⟨TokenType.INVALID, "Invalid character: " ++ String.mk [l.ch]⟩, readChar l) := by
    simp only [NextToken, hid]
    rw [if_neg hnz, if_neg (by rw [hnd]; simp)]
    rw [opToken, if_neg m1, if_neg m2, if_neg m3, if_neg m4, if_neg m5, if_neg m6]
  refine ⟨heq, by rw [heq, readChar_pos], ?_⟩
  rw [heq]
  exact (wfl_cons hw hnz).2.2

theorem NextToken_number {l : Lexer} (hw : WFL l) (hdig : isDigitGo l.ch = true) :
    (NextToken l).1 =
      ⟨TokenType.NUMBER, String.mk ((laSuffix l).takeWhile isDigitGo)⟩ ∧
    laSuffix (NextToken l).2 = (laSuffix l).dropWhile isDigitGo ∧
    (NextToken l).2.ch = ((laSuffix l).dropWhile isDigitGo).headD (Char.ofNat 0) ∧
    WFL (NextToken l).2 := by
  have hne : l.ch ≠ Char.ofNat 0 := ne_zero_of_isDigitGo hdig
  obtain ⟨hle, hconsEq, hwrc⟩ := wfl_cons hw hne
  obtain ⟨h1, h2, _h3, h4, _h5⟩ := NextToken_sim hw
  have hstep : tokenizeStep (laSuffix l) =
      (⟨TokenType.NUMBER, String.mk ((laSuffix l).takeWhile isDigitGo)⟩,
        (laSuffix l).dropWhile isDigitGo) := by
    rw [hconsEq]
    have hdrop : (l.ch :: laSuffix (readChar l)).dropWhile isSpaceGo =
        l.ch :: laSuffix (readChar l) := by
      rw [List.dropWhile_cons, not_space_of_isDigitGo hdig]
      simp
    simp only [tokenizeStep, hdrop]
    rw [if_neg hne, if_pos hdig]
  refine ⟨by rw [h1, hstep], by rw [h4, hstep], ?_, h2⟩
  rw [wfl_ch h2, h4, hstep]

/-- Rounding a rational that is a natural number starts from the
sign-magnitude pair `(false, n, 1)`. -/
theorem rndQ_natCast (n : ℕ) : rndQ (n : ℚ) = rndNat n := by
  rw [rndQ, rndNat, Rat.num_natCast, Rat.den_natCast]
  rw [show decide ((n : ℚ) < 0) = false from decide_eq_false (not_lt.mpr (by positivity))]
  rw [Int.natAbs_ofNat]

mutual

/-- `EvalF` on the tree of a well-formed factor derivation computes the
binary64 denotation (or the division-by-zero error when it is undefined). -/
theorem evalF_treeF : ∀ f : GFactor, gwfF f = true →
    EvalF (treeF f) =
      (match denFF f with | some v => Except.ok v | none => Except.error "division by zero")
  | .num ds => by
    intro h
    simp only [gwfF, Bool.and_eq_true, Bool.not_eq_true', List.all_eq_true] at h
    show Except.ok (rndQ (parseNumber (String.mk ds))) = _
    rw [parseNumber_digits h.2, rndQ_natCast]
    rfl
  | .paren e => fun h => evalF_treeE e h

theorem evalF_treeT : ∀ t : GTerm, gwfT t = true →
    EvalF (treeT t) =
      (match denFT t with | some v => Except.ok v | none => Except.error "division by zero")
  | .factor f => fun h => evalF_treeF f h
  | .mul t f => by
    intro h
    simp only [gwfT, Bool.and_eq_true] at h
    have iht := evalF_treeT t h.1
    have ihf := evalF_treeF f h.2
    cases hdt : denFT t with
    | none =>
      rw [hdt] at iht
      simp [EvalF, treeT, denFT, hdt, iht]
    | some a =>
      rw [hdt] at iht
      cases hdf : denFF f with
      | none =>
        rw [hdf] at ihf
        simp [EvalF, treeT, denFT, hdt, hdf, iht, ihf]
      | some b =>
        rw [hdf] at ihf
        simp [EvalF, treeT, denFT, hdt, hdf, iht, ihf]
  | .div t f => by
    intro h
    simp only [gwfT, Bool.and_eq_true] at h
    have iht := evalF_treeT t h.1
    have ihf := evalF_treeF f h.2
    cases hdt : denFT t with
    | none =>
      rw [hdt] at iht
      simp [EvalF, treeT, denFT, hdt, iht]
    | some a =>
      rw [hdt] at iht
      cases hdf : denFF f with
      | none =>
        rw [hdf] at ihf
        simp [EvalF, treeT, denFT, hdt, hdf, iht, ihf]
      | some b =>
        rw [hdf] at ihf
        cases hb : b.isZero with
        | true => simp [EvalF, treeT, denFT, hdt, hdf, iht, ihf, hb]
        | false => simp [EvalF, treeT, denFT, hdt, hdf, iht, ihf, hb]

theorem evalF_treeE : ∀ e : GExpr, gwfE e = true →
    EvalF (treeE e) =
      (match denFE e with | some v => Except.ok v | none => Except.error "division by zero")
  | .term t => fun h => evalF_treeT t h
  | .add e t => by
    intro h
    simp only [gwfE, Bool.and_eq_true] at h
    have ihe := evalF_treeE e h.1
    have iht := evalF_treeT t h.2
    cases hde : denFE e with
    | none =>
      rw [hde] at ihe
      simp [EvalF, treeE, denFE, hde, ihe]
    | some a =>
      rw [hde] at ihe
      cases hdt : denFT t with
      | none =>
        rw [hdt] at iht
        simp [EvalF, treeE, denFE, hde, hdt, ihe, iht]
      | some b =>
        rw [hdt] at iht
        simp [EvalF, treeE, denFE, hde, hdt, ihe, iht]
  | .sub e t => by
    intro h
    simp only [gwfE, Bool.and_eq_true] at h
    have ihe := evalF_treeE e h.1
    have iht := evalF_treeT t h.2
    cases hde : denFE e with
    | none =>
      rw [hde] at ihe
      simp [EvalF, treeE, denFE, hde, ihe]
    | some a =>
      rw [hde] at ihe
      cases hdt : denFT t with
      | none =>
        rw [hdt] at iht
        simp [EvalF, treeE, denFE, hde, hdt, ihe, iht]
      | some b =>
        rw [hdt] at iht
        simp [EvalF, treeE, denFE, hde, hdt, ihe, iht]

end

/-- C2: `Eval` returns the division-by-zero error exactly when evaluation
reaches a DIV node whose right child evaluates to exactly `0` (no epsilon
tolerance); the error replaces any numeric result, and `1 / 0` reports it. -/
theorem c2_division_by_zero :
    (∀ e : Expr, (Eval e = .error "division by zero") ↔ divZeroReach e) ∧
    runStr "1 / 0" = .error "division by zero" :=
  ⟨eval_divZero_iff, rfl⟩

/-- C3: a lookahead character that is not whitespace, not a digit, not the 0
sentinel and not one of the six operator characters yields an INVALID token
whose payload contains the literal character, while the lexer advances past
it and remains well-formed; the parser rejects an INVALID token in factor
position, but an INVALID token where an operator would go does not make
`Parse` fail (for example on `2 @`). -/
theorem c3_invalid_character :
    (∀ l : Lexer, WFL l →
      isSpaceGo l.ch = false → isDigitGo l.ch = false → l.ch ≠ Char.ofNat 0 →
      l.ch ∉ (['+', '-', '*', '/', '(', ')'] : List Char) →
      NextToken l =
        (⟨TokenType.INVALID, "Invalid character: " ++ String.mk [l.ch]⟩, readChar l) ∧
      (NextToken l).2.pos = l.pos + 1 ∧ WFL (NextToken l).2) ∧
    (∀ (p : Parser) (fuel : Nat), p.curr.type = TokenType.INVALID → 1 ≤ fuel →
      parseFactor fuel p = .error (factorErrMsg TokenType.INVALID)) ∧
    (∃ p', ParseString "2 @".toList = .ok (Expr.Number 2, p')) := by
  refine ⟨fun l hw hns hnd hnz hmem => NextToken_invalid hw hns hnd hnz hmem, ?_, ⟨_, rfl⟩⟩
  intro p fuel htype hfuel
  have h := parseFactor_badGe p (by rw [htype]; decide) (by rw [htype]; decide) hfuel
  rw [htype] at h
  exact h

/-- Witness for C3 at the concrete input `@`. -/
theorem c3_invalid_character_witness :
    NextToken (NewLexer ['@']) =
      (⟨TokenType.INVALID, "Invalid character: " ++ String.mk ['@']⟩,
        readChar (NewLexer ['@'])) ∧
    parseFactor 1 (NewParser (NewLexer ['@'])) = .error (factorErrMsg TokenType.INVALID) :=
  ⟨(c3_invalid_character.1 (NewLexer ['@']) (by decide) (by decide) (by decide) (by decide)
      (by decide)).1,
    c3_invalid_character.2.1 (NewParser (NewLexer ['@'])) 1 (by decide) (by decide)⟩

/-- C4: after consuming a LEFT_PAREN and parsing the inner expression,
`parseFactor` fails with the missing-closing-parenthesis error whenever the
current token is not RIGHT_PAREN, and otherwise consumes the RIGHT_PAREN and
returns the inner tree unchanged (no extra node); `(2 + 3` reports that
error. -/
theorem c4_missing_rparen :
    (∀ (p : Parser) (fuel : Nat) (e : Expr) (p' : Parser),
      p.curr.type = TokenType.LPAREN →
      parseExpr fuel (advanceTok p) = .ok (e, p') →
      parseFactor (fuel + 1) p =
        (if p'.curr.type = TokenType.RPAREN then .ok (e, advanceTok p')
          else .error "expected closing parenthesis")) ∧
    ParseString "(2 + 3".toList = .error "expected closing parenthesis" ∧
    runStr "(2 + 3" = .error "expected closing parenthesis" := by
  refine ⟨?_, rfl, rfl⟩
  intro p fuel e p' hlp hexp
  simp only [parseFactor]
  rw [if_neg (by rw [hlp]; decide), if_pos hlp, hexp]

/-- Witness for C4 at the concrete input `(1)`. -/
theorem c4_missing_rparen_witness :
    ∃ (e : Expr) (p' : Parser),
      parseExpr 10 (advanceTok (NewParser (NewLexer "(1)".toList))) = .ok (e, p') ∧
      parseFactor 11 (NewParser (NewLexer "(1)".toList)) =
        (if p'.curr.type = TokenType.RPAREN then .ok (e, advanceTok p')
          else .error "expected closing parenthesis") :=
  ⟨_, _, rfl, c4_missing_rparen.1 (NewParser (NewLexer "(1)".toList)) 10 _ _ (by decide) rfl⟩

/-- C5: on a digit lookahead, `NextToken` returns a NUMBER token whose
payload is exactly the maximal contiguous digit run starting at the current
position, and the lookahead afterwards is the first character past that run
(or the 0 sentinel). -/
theorem c5_number_lexing :
    ∀ l : Lexer, WFL l → isDigitGo l.ch = true →
      (NextToken l).1 =
        ⟨TokenType.NUMBER, String.mk ((laSuffix l).takeWhile isDigitGo)⟩ ∧
      laSuffix (NextToken l).2 = (laSuffix l).dropWhile isDigitGo ∧
      (NextToken l).2.ch = ((laSuffix l).dropWhile isDigitGo).headD (Char.ofNat 0) ∧
      WFL (NextToken l).2 :=
  fun _ hw hdig => NextToken_number hw hdig

/-- Witness for C5 at the concrete input `12+`. -/
theorem c5_number_lexing_witness :
    (NextToken (NewLexer ['1', '2', '+'])).1 =
      ⟨TokenType.NUMBER,
        String.mk ((laSuffix (NewLexer ['1', '2', '+'])).takeWhile isDigitGo)⟩ ∧
    laSuffix (NextToken (NewLexer ['1', '2', '+'])).2 =
      (laSuffix (NewLexer ['1', '2', '+'])).dropWhile isDigitGo ∧
    (NextToken (NewLexer ['1', '2', '+'])).2.ch =
      ((laSuffix (NewLexer ['1', '2', '+'])).dropWhile isDigitGo).headD (Char.ofNat 0) ∧
    WFL (NextToken (NewLexer ['1', '2', '+'])).2 :=
  c5_number_lexing (NewLexer ['1', '2', '+']) (by decide) (by decide)

/-- C6: `Parse` does not require the token stream to be exhausted: an input
that begins with a grammar-generated expression and continues with trailing
text whose first token is none of PLUS, MINUS, MULT, DIV parses successfully
to the leading expression's tree, ignoring the trailing tokens; in
particular `2 3` parses to the literal `2` and `1+2)` to `1+2`. -/
theorem c6_trailing_tokens_ignored :
    (∀ (g : GExpr) (junk : List Char), gwfE g = true → NB junk →
      (tokenizeStep junk).1.type ≠ TokenType.PLUS →
      (tokenizeStep junk).1.type ≠ TokenType.MINUS →
      (tokenizeStep junk).1.type ≠ TokenType.MULT →
      (tokenizeStep junk).1.type ≠ TokenType.DIV →
      ∃ p', ParseString (printE g ++ junk) = .ok (treeE g, p')) ∧
    (∃ p', ParseString "2 3".toList = .ok (Expr.Number 2, p')) ∧
    (∃ p', ParseString "1+2)".toList =
      .ok (Expr.BinaryOp (Expr.Number 1) ⟨TokenType.PLUS, "+"⟩ (Expr.Number 2), p')) := by
  refine ⟨?_, ⟨_, rfl⟩, ⟨_, rfl⟩⟩
  intro g junk hwf hnb h1 h2 h3 h4
  obtain ⟨p', hp, _⟩ := ParseString_print g junk hwf hnb h1 h2 h3 h4
  exact ⟨p', hp⟩

/-- Witness for C6 at the derivation of `7` followed by the trailing text
` 8`. -/
theorem c6_trailing_tokens_ignored_witness :
    ∃ p', ParseString (printE (GExpr.term (GTerm.factor (GFactor.num ['7']))) ++
      [' ', '8']) = .ok (treeE (GExpr.term (GTerm.factor (GFactor.num ['7']))), p') :=
  c6_trailing_tokens_ignored.1 (GExpr.term (GTerm.factor (GFactor.num ['7'])))
    [' ', '8'] (by decide) (Or.inr (by decide)) (by decide) (by decide) (by decide)
    (by decide)

/-- C7: two inputs made of the same token texts with different runs of
whitespace inserted between them give the same token sequence from the lexer
and identical parse-then-eval results; in particular `2+3` and
` 2 +   3 ` both evaluate to `5`. -/
theorem c7_whitespace_insensitive :
    (∀ (ps : List (List Char)) (s t : List Char), SpacedTok ps s → SpacedTok ps t →
      (∀ n, (NextToken (lexIter n (NewLexer s))).1 =
        (NextToken (lexIter n (NewLexer t))).1) ∧
      runString s = runString t) ∧
    runStr "2+3" = runStr " 2 +   3 " ∧
    runStr "2+3" = .ok 5 := by
  refine ⟨fun ps s t hs ht => spacedTok_run_eq hs ht, rfl, ?_⟩
  have h : runStr "2+3" = .ok (parseNumber "2" + parseNumber "3") := rfl
  rw [h, show parseNumber "2" = ((2 : ℕ) : ℚ) from rfl,
    show parseNumber "3" = ((3 : ℕ) : ℚ) from rfl]
  norm_num

/-- Witness for C7 at the concrete pair `2+3` and ` 2 +   3 `. -/
theorem c7_whitespace_insensitive_witness :
    SpacedTok [['2'], ['+'], ['3']] "2+3".toList ∧
    SpacedTok [['2'], ['+'], ['3']] " 2 +   3 ".toList ∧
    runString "2+3".toList = runString " 2 +   3 ".toList := by
  have hnm2 : NoMerge ['2'] (['+'] ++ (['3'] ++ [])) := fun _ => Or.inr (by decide)
  have hnmp : NoMerge ['+'] (['3'] ++ []) := by
    intro hh
    exact absurd (hh '+' (by decide)) (by decide)
  have h1 : SpacedTok [['2'], ['+'], ['3']] "2+3".toList := by
    show SpacedTok [['2'], ['+'], ['3']] (['2'] ++ (['+'] ++ (['3'] ++ [])))
    exact .piece (Or.inl ⟨by decide, by decide⟩) hnm2
      (.piece (Or.inr ⟨'+', rfl, by decide, by decide, by decide⟩) hnmp
        (.piece (Or.inl ⟨by decide, by decide⟩) (fun _ => Or.inl rfl) .nil))
  have hnm2b : NoMerge ['2'] (' ' :: (['+'] ++ (' ' :: (' ' :: (' ' :: (['3'] ++ [' '])))))) :=
    fun _ => Or.inr (by decide)
  have h2 : SpacedTok [['2'], ['+'], ['3']] " 2 +   3 ".toList := by
    show SpacedTok [['2'], ['+'], ['3']]
      (' ' :: (['2'] ++ (' ' :: (['+'] ++ (' ' :: (' ' :: (' ' :: (['3'] ++ [' ']))))))))
    refine .space (by decide) ?_
    refine .piece (Or.inl ⟨by decide, by decide⟩) hnm2b ?_
    refine .space (by decide) ?_
    refine .piece (Or.inr ⟨'+', rfl, by decide, by decide, by decide⟩) ?_ ?_
    · intro hh
      exact absurd (hh '+' (by decide)) (by decide)
    refine .space (by decide) ?_
    refine .space (by decide) ?_
    refine .space (by decide) ?_
    refine .piece (Or.inl ⟨by decide, by decide⟩) (fun _ => Or.inr (by decide)) ?_
    exact .space (by decide) .nil
  exact ⟨h1, h2, (c7_whitespace_insensitive.1 [['2'], ['+'], ['3']] _ _ h1 h2).2⟩

/-- C9: parsing and evaluating the same input with freshly constructed
`Lexer` and `Parser` values is a pure function of the input string alone, so
repeated runs give identical trees and identical results; in the embedding
every run is literally the same value. -/
theorem c9_rerun_deterministic :
    ∀ s : List Char,
      Parse (NewParser (NewLexer s)) = Parse (NewParser (NewLexer s)) ∧
      runString s = runString s :=
  fun _ => ⟨rfl, rfl⟩

/-- C10: the scan cursor of the lexer never decreases, neither across one
`NextToken` call from any state, nor along any sequence of `NextToken`
calls. -/
theorem c10_cursor_monotone :
    (∀ l : Lexer, l.pos ≤ (NextToken l).2.pos) ∧
    (∀ (l : Lexer) (n : Nat), (lexIter n l).pos ≤ (lexIter (n + 1) l).pos) :=
  ⟨NextToken_pos, fun l n => lexIter_pos_mono n l⟩

end ExpressionParser
